import Mathlib

/-!
Verification of the source file (an HTML-fragment-to-LaTeX converter).

The development shallowly embeds the two components of the program:
  * the recursive tree emitter `html_to_latex` over a document-tree type
    `Node` mirroring BeautifulSoup's `NavigableString`/`Tag` values, and
  * the textual post-processor `post_process_latex`, a fixed sequence of
    regex rewrite passes, each modelled as a left-to-right scan over the
    character list with the exact leftmost-longest-with-backtracking
    semantics of the corresponding Python `re.sub` call.

Warnings that the Python code prints to `stderr` are modelled as an
explicit list of `Warning` values returned next to the emitted string.
-/

namespace ThinkParser

/-- Characters matched by Python's regex class `\s` on `str` patterns (and
stripped by `str.strip()`): the six ASCII whitespace characters together
with the Unicode whitespace code points. -/
def isSpace (c : Char) : Bool :=
  c = ' ' || c = '\t' || c = '\n' || c = '\r' || c = '\x0b' || c = '\x0c' ||
  c = '\x1c' || c = '\x1d' || c = '\x1e' || c = '\x1f' || c = '\x85' || c = '\xa0' ||
  c = '\u1680' || ('\u2000' ≤ c && c ≤ '\u200a') || c = '\u2028' || c = '\u2029' ||
  c = '\u202f' || c = '\u205f' || c = '\u3000'

/-- Sentence punctuation of the post-processor's first pass: `[.,;:!?]`. -/
def isPunct (c : Char) : Bool :=
  c = '.' || c = ',' || c = ';' || c = ':' || c = '!' || c = '?'

/-- Python `str.lstrip()`: drop leading whitespace. -/
def lstrip (l : List Char) : List Char := l.dropWhile isSpace

/-- Python `str.strip()`: drop leading and trailing whitespace. -/
def stripChars (l : List Char) : List Char :=
  ((lstrip l).reverse.dropWhile isSpace).reverse

/-- Scanner for `re.sub(r'\s+', ' ', text)` (line 31): the flag records
whether we are inside a whitespace run that has already produced its
single replacement space. -/
def cwAux : Bool → List Char → List Char
  | _, [] => []
  | inRun, c :: cs =>
    if isSpace c then
      if inRun then cwAux true cs else ' ' :: cwAux true cs
    else c :: cwAux false cs

/-- The pass `re.sub(r'\s+', ' ', text)`: collapse every whitespace run to one space. -/
def collapseWs (l : List Char) : List Char := cwAux false l

/-- Function `clean_text` (lines 28-32): collapse whitespace runs to a single space,
then strip leading/trailing whitespace. -/
def clean_text (s : String) : String := ⟨stripChars (collapseWs s.data)⟩

/-- One `str.replace(a, rep)` call for a single-character needle. -/
def replaceCh (a : Char) (rep : List Char) (l : List Char) : List Char :=
  l.flatMap fun c => if c = a then rep else [c]

/-- The five sequential `replace` calls of lines 42-46, in source order:
`%`, `&`, `_`, `#`, `$` each get a backslash prefix. -/
def escapeLatex (s : String) : String :=
  ⟨replaceCh '$' ['\\', '$'] (replaceCh '#' ['\\', '#'] (replaceCh '_' ['\\', '_']
    (replaceCh '&' ['\\', '&'] (replaceCh '%' ['\\', '%'] s.data))))⟩

/-- The rewrite `re.sub(r'\n\n+', '\n', inner_latex)` (line 116): collapse every run of
two or more consecutive newlines to a single newline. -/
def squeezeNl : List Char → List Char
  | [] => []
  | [c] => [c]
  | c :: c2 :: cs =>
    if c = '\n' && c2 = '\n' then squeezeNl (c2 :: cs)
    else c :: squeezeNl (c2 :: cs)

/-- String-level wrappers for `str.strip()` and line-116 newline squeezing. -/
def pyStrip (s : String) : String := ⟨stripChars s.data⟩

/-- String-level wrapper for `squeezeNl`. -/
def squeezeNlStr (s : String) : String := ⟨squeezeNl s.data⟩

/-- The document tree built by BeautifulSoup: a `NavigableString` holds raw
text; a `Tag` has a name, the (multi-valued) `class` attribute, the other
attributes, and the ordered children. -/
inductive Node where
  | navString (s : String)
  | tag (name : String) (classes : List String) (attrs : List (String × String)) (children : List Node)

/-- Diagnostics printed to `stderr` by `html_to_latex`: either the
could-not-extract message naming an unconvertible `ms-katex` element
(line 92) or the unhandled-tag message naming the tag (line 139). -/
inductive Warning where
  | katexUnconvertible (element : Node)
  | unhandledTag (tagName : String)

/-- Python `str.lower()` as applied to tag names (line 56), character-wise case
folding. -/
def lowerStr (s : String) : String := ⟨s.data.map Char.toLower⟩

/-- Attribute lookup, as on a BeautifulSoup attribute dict. -/
def getAttr (attrs : List (String × String)) (key : String) : Option String :=
  (attrs.find? (fun p => p.1 = key)).map Prod.snd

/-- The filter of `element.find('annotation', encoding='application/x-tex')`
(line 75): a tag named `annotation` whose `encoding` attribute is the TeX
marker. -/
def isTexAnn : Node → Bool
  | .navString _ => false
  | .tag name _ attrs _ =>
      name = "annotation" && getAttr attrs "encoding" = some "application/x-tex"

/-- The filter of `element.find('code')` (line 87). -/
def isCodeTag : Node → Bool
  | .navString _ => false
  | .tag name _ _ _ => name = "code"

mutual

/-- BeautifulSoup `element.find(...)`: first matching descendant in
document order (pre-order, depth-first), searching the given child list. -/
def findDesc (pred : Node → Bool) : List Node → Option Node
  | [] => none
  | n :: rest =>
    if pred n then some n
    else
      match findInside pred n with
      | some m => some m
      | none => findDesc pred rest

/-- Search inside one node: a text node has no descendants; a tag is
searched through its children. -/
def findInside (pred : Node → Bool) : Node → Option Node
  | .navString _ => none
  | .tag _ _ _ ch => findDesc pred ch

end

/-- BeautifulSoup's `.string` property: a `NavigableString` is its own
string; a tag with exactly one child delegates to that child; any other
tag has no string. -/
def Node.str : Node → Option String
  | .navString s => some s
  | .tag _ _ _ [c] => Node.str c
  | .tag _ _ _ _ => none

/-- Python truthiness of `element and element.string`: the found node's
string, provided it is present and non-empty. -/
def truthyStr : Option Node → Option String
  | none => none
  | some n =>
    match n.str with
    | some s => if s = "" then none else some s
    | none => none

/-- The tag names of the generic passthrough allow-list (line 126). -/
def passthroughTags : List String :=
  ["ms-text-chunk", "ms-cmark-node", "div", "pre", "code", "math", "semantics"]

mutual

/-- Function `html_to_latex` (lines 34-145): recursively convert a node to LaTeX.
The returned list collects the warnings the Python code prints to
`stderr`, in print order. -/
def html_to_latex : Node → String × List Warning
  | .navString s =>
    let cleaned := escapeLatex (clean_text s)
    (if cleaned ≠ "" then cleaned ++ " " else "", [])
  | .tag name classes attrs children =>
    let tn := lowerStr name
    if tn = "p" then
      let r := childrenLatex children
      (pyStrip r.1 ++ "\n\n", r.2)
    else if tn = "span" then
      childrenLatex children
    else if tn = "ms-katex" then
      match truthyStr (findDesc isTexAnn children) with
      | some s =>
        let mc := pyStrip s
        if classes.contains "inline" then ("$" ++ mc ++ "$ ", [])
        else ("\\[\n" ++ mc ++ "\n\\]\n\n", [])
      | none =>
        match truthyStr (findDesc isCodeTag children) with
        | some s => ("$" ++ pyStrip s ++ "$ ", [])
        | none => ("", [Warning.katexUnconvertible (Node.tag name classes attrs children)])
    else if tn = "br" then
      ("\n", [])
    else if tn = "ol" then
      let r := childrenLatex children
      ("\\begin{enumerate}\n" ++ pyStrip r.1 ++ "\n\\end{enumerate}\n\n", r.2)
    else if tn = "li" then
      let r := childrenLatex children
      ("  \\item " ++ squeezeNlStr (pyStrip r.1) ++ "\n", r.2)
    else if tn = "div" && classes.contains "mat-expansion-panel-body" then
      childrenLatex children
    else if passthroughTags.contains tn then
      childrenLatex children
    else
      let r := childrenLatex children
      (r.1, Warning.unhandledTag tn :: r.2)

/-- Concatenation of the children's emissions, in document order, with
their warnings concatenated in print order. -/
def childrenLatex : List Node → String × List Warning
  | [] => ("", [])
  | n :: rest =>
    let r1 := html_to_latex n
    let r2 := childrenLatex rest
    (r1.1 ++ r2.1, r1.2 ++ r2.2)

end

mutual

/-- The emitter with the diagnostics channel threaded through explicitly
as mutable state, mirroring the sequential `print(..., file=sys.stderr)`
side effect of the Python code: warnings are appended to the channel at
the moment the Python code would print them. -/
def emitM : Node → List Warning → String × List Warning
  | .navString s, log =>
    let cleaned := escapeLatex (clean_text s)
    (if cleaned ≠ "" then cleaned ++ " " else "", log)
  | .tag name classes attrs children, log =>
    let tn := lowerStr name
    if tn = "p" then
      let r := childrenM children log
      (pyStrip r.1 ++ "\n\n", r.2)
    else if tn = "span" then
      childrenM children log
    else if tn = "ms-katex" then
      match truthyStr (findDesc isTexAnn children) with
      | some s =>
        let mc := pyStrip s
        if classes.contains "inline" then ("$" ++ mc ++ "$ ", log)
        else ("\\[\n" ++ mc ++ "\n\\]\n\n", log)
      | none =>
        match truthyStr (findDesc isCodeTag children) with
        | some s => ("$" ++ pyStrip s ++ "$ ", log)
        | none => ("", log ++ [Warning.katexUnconvertible (Node.tag name classes attrs children)])
    else if tn = "br" then
      ("\n", log)
    else if tn = "ol" then
      let r := childrenM children log
      ("\\begin{enumerate}\n" ++ pyStrip r.1 ++ "\n\\end{enumerate}\n\n", r.2)
    else if tn = "li" then
      let r := childrenM children log
      ("  \\item " ++ squeezeNlStr (pyStrip r.1) ++ "\n", r.2)
    else if tn = "div" && classes.contains "mat-expansion-panel-body" then
      childrenM children log
    else if passthroughTags.contains tn then
      childrenM children log
    else
      let r := childrenM children (log ++ [Warning.unhandledTag tn])
      (r.1, r.2)

/-- Children processed left to right, threading the diagnostics channel. -/
def childrenM : List Node → List Warning → String × List Warning
  | [], log => ("", log)
  | n :: rest, log =>
    let r1 := emitM n log
    let r2 := childrenM rest r1.2
    (r1.1 ++ r2.1, r2.2)

end

/-!
The post-processor `post_process_latex` (lines 147-163). Each regex pass
is modelled as a scan that accumulates the current (reversed) whitespace
run in `pend` and decides at the end of the run what the corresponding
`re.sub` would have done with it.
-/

/-- Pass 1, `re.sub(r'\s+([.,;:!?])', r'\1', _)` (line 150): a maximal
whitespace run immediately followed by a punctuation character is
deleted; everything else is kept. -/
def p1Aux : List Char → List Char → List Char
  | pend, [] => pend.reverse
  | pend, c :: cs =>
    if isSpace c then p1Aux (c :: pend) cs
    else if isPunct c then c :: p1Aux [] cs
    else pend.reverse ++ (c :: p1Aux [] cs)

/-- Validity of a match end position inside a whitespace run for pass 2:
`\s+\n$` under `re.MULTILINE` needs at least one whitespace character, a
literal newline at position `j`, and end-of-line right after it, which
inside the run means either another newline or (at the last position of a
run that closes the string) end of input. -/
def validJ (R : List Char) (atEnd : Bool) (j : Nat) : Bool :=
  decide (1 ≤ j) && decide (R.getD j ' ' = '\n') &&
    (if j + 1 = R.length then atEnd else decide (R.getD (j + 1) ' ' = '\n'))

/-- The greedy `\s+` backtracks from the right, so the match (if any) ends
at the largest valid position. -/
def lastValidJ (R : List Char) (atEnd : Bool) : Option Nat :=
  ((List.range R.length).filter (validJ R atEnd)).getLast?

/-- Effect of pass 2 on one maximal whitespace run: replace the prefix up
to the match end with a single newline; at most one match can start in a
given run, so the remainder is kept verbatim. -/
def trimRun (R : List Char) (atEnd : Bool) : List Char :=
  match lastValidJ R atEnd with
  | some j => '\n' :: R.drop (j + 1)
  | none => R

/-- Pass 2, `re.sub(r'\s+\n$', r'\n', _, flags=re.MULTILINE)` (line 152). -/
def p2Aux : List Char → List Char → List Char
  | pend, [] => trimRun pend.reverse true
  | pend, c :: cs =>
    if isSpace c then p2Aux (c :: pend) cs
    else trimRun pend.reverse false ++ (c :: p2Aux [] cs)

/-- Does the list start with the five characters of a literal `\item`? -/
def startsWithItem : List Char → Bool
  | '\\' :: 'i' :: 't' :: 'e' :: 'm' :: _ => true
  | _ => false

/-- Pass 3, `re.sub(r'\s+\\item', r'\\item', _)` (line 154): a maximal
whitespace run immediately followed by `\item` is deleted. When `\item`
follows the pending run, the run is dropped and the backslash passes
through; the following letters `item` are non-whitespace, so the
continued scan copies them verbatim, matching the `re.sub` continuation
point after the replacement. -/
def p3Aux : List Char → List Char → List Char
  | pend, [] => pend.reverse
  | pend, c :: cs =>
    if isSpace c then p3Aux (c :: pend) cs
    else if startsWithItem (c :: cs) then c :: p3Aux [] cs
    else pend.reverse ++ (c :: p3Aux [] cs)

/-- Effect of pass 4 on one maximal whitespace run: `(\n\s*){3,}` matches
from the run's first newline to the run's end exactly when the run holds
at least three newlines, and the replacement is one blank line. -/
def collapseRun (R : List Char) : List Char :=
  if 3 ≤ R.count '\n' then R.takeWhile (fun c => c ≠ '\n') ++ ['\n', '\n'] else R

/-- Pass 4, `re.sub(r'(\n\s*){3,}', '\n\n', _)` (line 160). -/
def p4Aux : List Char → List Char → List Char
  | pend, [] => collapseRun pend.reverse
  | pend, c :: cs =>
    if isSpace c then p4Aux (c :: pend) cs
    else collapseRun pend.reverse ++ (c :: p4Aux [] cs)

/-- Function `post_process_latex` (lines 147-163): the four regex passes in source
order, then `str.strip()`. -/
def post_process_latex (s : String) : String :=
  ⟨stripChars (p4Aux [] (p3Aux [] (p2Aux [] (p1Aux [] s.data))))⟩

/-!
General facts about the emitter used by several claims.
-/

/-- The tag names with a dedicated branch in `html_to_latex`; every other
tag falls into the warn-and-pass-through default branch. -/
def handledTags : List String :=
  ["p", "span", "ms-katex", "br", "ol", "li"] ++ passthroughTags

/-- Unfolding of the emitter on a `ms-katex` element. -/
lemma html_to_latex_katex (name : String) (classes : List String)
    (attrs : List (String × String)) (children : List Node)
    (h : lowerStr name = "ms-katex") :
    html_to_latex (Node.tag name classes attrs children) =
      match truthyStr (findDesc isTexAnn children) with
      | some s =>
        if classes.contains "inline" then ("$" ++ pyStrip s ++ "$ ", [])
        else ("\\[\n" ++ pyStrip s ++ "\n\\]\n\n", [])
      | none =>
        match truthyStr (findDesc isCodeTag children) with
        | some s => ("$" ++ pyStrip s ++ "$ ", [])
        | none => ("", [Warning.katexUnconvertible (Node.tag name classes attrs children)]) := by
  rw [html_to_latex, h]
  rfl

/-- Stripping a whitespace-only string yields the empty string. -/
lemma strip_of_all_space (s : String) (h : s.data.all isSpace) : pyStrip s = "" := by
  have h1 : lstrip s.data = [] := by
    simp only [lstrip, List.dropWhile_eq_nil_iff]
    intro x hx
    exact List.all_eq_true.mp h x hx
  simp [pyStrip, stripChars, h1]

/-- C2. For every math-widget element that contains a TeX annotation node
with non-empty text: with the `inline` class marker the emitter emits the
stripped annotation text as `$...$` with exactly one trailing space,
otherwise the two-line display block `\[`, text, `\]` followed by a blank
line; no warning is recorded either way. -/
theorem C2_math_annotation_emission (name : String) (classes : List String)
    (attrs : List (String × String)) (children : List Node) (s : String)
    (hname : lowerStr name = "ms-katex")
    (hann : truthyStr (findDesc isTexAnn children) = some s) :
    html_to_latex (Node.tag name classes attrs children) =
      if classes.contains "inline" then ("$" ++ pyStrip s ++ "$ ", [])
      else ("\\[\n" ++ pyStrip s ++ "\n\\]\n\n", []) := by
  rw [html_to_latex_katex name classes attrs children hname, hann]

/-- Witness for C2: the spec's two examples, an inline widget with
annotation `x+y` and a display widget with annotation `E=mc^2`. -/
theorem C2_math_annotation_emission_witness :
    html_to_latex (Node.tag "ms-katex" ["inline"] []
        [Node.tag "annotation" [] [("encoding", "application/x-tex")] [Node.navString "x+y"]])
      = ("$x+y$ ", []) ∧
    html_to_latex (Node.tag "ms-katex" [] []
        [Node.tag "annotation" [] [("encoding", "application/x-tex")] [Node.navString "E=mc^2"]])
      = ("\\[\nE=mc^2\n\\]\n\n", []) := by
  constructor
  · exact C2_math_annotation_emission "ms-katex" ["inline"] []
      [Node.tag "annotation" [] [("encoding", "application/x-tex")] [Node.navString "x+y"]] "x+y" rfl rfl
  · exact C2_math_annotation_emission "ms-katex" [] []
      [Node.tag "annotation" [] [("encoding", "application/x-tex")] [Node.navString "E=mc^2"]] "E=mc^2" rfl rfl

/-- The two-`code` element refuting C3 as stated: its first `code`
descendant is empty (its `.string` is absent), while its second `code`
descendant carries the non-empty text `x`. -/
def katexTwoCodes : Node :=
  Node.tag "ms-katex" [] [] [Node.tag "code" [] [] [], Node.tag "code" [] [] [Node.navString "x"]]

/-- Counterexample to C3. The element `katexTwoCodes` has a code-content
descendant with non-empty text (the first such descendant in document
order has text `x`), yet the emitter does not emit `$x$ `: it emits the
empty string and records a warning, because the code consults only the
first `code` descendant and that one has no usable string. -/
theorem C3_fallback_counterexample :
    truthyStr (findDesc (fun n => isCodeTag n && (truthyStr (some n)).isSome)
        [Node.tag "code" [] [] [], Node.tag "code" [] [] [Node.navString "x"]]) = some "x" ∧
    html_to_latex katexTwoCodes = ("", [Warning.katexUnconvertible katexTwoCodes]) ∧
    (html_to_latex katexTwoCodes).1 ≠ "$" ++ pyStrip "x" ++ "$ " := by
  refine ⟨rfl, rfl, ?_⟩
  decide

/-- C3 as amended. For a math widget with no usable TeX annotation the
emitter consults the first `code` descendant in document order: if that
descendant has a present, non-empty string the emitter emits it
(stripped) wrapped inline as `$...$` with a trailing space and records no
warning; otherwise (no `code` descendant at all, or the first one's
string absent or empty) it emits the empty string and records exactly one
warning naming the unconvertible element. -/
theorem C3_fallback_amended (name : String) (classes : List String)
    (attrs : List (String × String)) (children : List Node)
    (hname : lowerStr name = "ms-katex")
    (hann : truthyStr (findDesc isTexAnn children) = none) :
    html_to_latex (Node.tag name classes attrs children) =
      match truthyStr (findDesc isCodeTag children) with
      | some s => ("$" ++ pyStrip s ++ "$ ", [])
      | none => ("", [Warning.katexUnconvertible (Node.tag name classes attrs children)]) := by
  rw [html_to_latex_katex name classes attrs children hname, hann]

/-- Witness for C3 as amended: the spec's fallback example, a widget with
no annotation whose `code` descendant holds `a^2`, emits `$a^2$ ` with no
warning; a widget with neither emits nothing with exactly one warning. -/
theorem C3_fallback_amended_witness :
    html_to_latex (Node.tag "ms-katex" [] [] [Node.tag "code" [] [] [Node.navString "a^2"]])
      = ("$a^2$ ", []) ∧
    html_to_latex (Node.tag "ms-katex" [] [] [])
      = ("", [Warning.katexUnconvertible (Node.tag "ms-katex" [] [] [])]) := by
  constructor
  · exact C3_fallback_amended "ms-katex" [] [] [Node.tag "code" [] [] [Node.navString "a^2"]] rfl rfl
  · exact C3_fallback_amended "ms-katex" [] [] [] rfl rfl

/-- The ordered list of the C5 round-trip: two items holding the plain
texts `A` and `B`. -/
def twoItemList : Node :=
  Node.tag "ol" [] []
    [Node.tag "li" [] [] [Node.navString "A"], Node.tag "li" [] [] [Node.navString "B"]]

/-- C5. The two-item ordered list emits the `enumerate` block with one
`\item` line per item and a blank line after `\end{enumerate}`. The
emitted string agrees with the string claimed by the spec up to
whitespace outside the item bodies (the `ol` handler strips the leading
indentation of the first item); `clean_text` is used as the
whitespace-collapsing normalizer for the comparison, and the exact
emitted string is recorded in the first conjunct. -/
theorem C5_list_roundtrip :
    html_to_latex twoItemList
      = ("\\begin{enumerate}\n\\item A\n  \\item B\n\\end{enumerate}\n\n", []) ∧
    clean_text "\\begin{enumerate}\n\\item A\n  \\item B\n\\end{enumerate}\n\n"
      = clean_text "\\begin{enumerate}\n  \\item A\n  \\item B\n\\end{enumerate}\n\n" := by
  exact ⟨rfl, by decide⟩

/-- C6. For every element whose (lower-cased) tag is outside the handled
set, the emitter emits exactly the concatenation of its children's
emissions and prepends exactly one warning naming the unhandled tag to
the children's warnings. -/
theorem C6_unknown_tag_passthrough (name : String) (classes : List String)
    (attrs : List (String × String)) (children : List Node)
    (h : lowerStr name ∉ handledTags) :
    html_to_latex (Node.tag name classes attrs children) =
      ((childrenLatex children).1,
        Warning.unhandledTag (lowerStr name) :: (childrenLatex children).2) := by
  simp only [handledTags, passthroughTags, List.cons_append, List.nil_append,
    List.mem_cons, List.not_mem_nil, or_false, not_or] at h
  obtain ⟨h1, h2, h3, h4, h5, h6, h7, h8, h9, h10, h11, h12, h13⟩ := h
  rw [html_to_latex]
  rw [if_neg h1, if_neg h2, if_neg h3, if_neg h4, if_neg h5, if_neg h6]
  rw [if_neg (by simp [h9]), if_neg (by simp [passthroughTags, h7, h8, h9, h10, h11, h12, h13])]

/-- Witness for C6: the spec's example, an unrecognized element wrapping
the text node `hello`, emits `hello ` and produces exactly one warning
naming the tag. -/
theorem C6_unknown_tag_passthrough_witness :
    html_to_latex (Node.tag "custom" [] [] [Node.navString "hello"])
      = ("hello ", [Warning.unhandledTag "custom"]) := by
  have h := C6_unknown_tag_passthrough "custom" [] [] [Node.navString "hello"] (by decide)
  exact h

/-- C10. For every math widget whose TeX annotation exists and holds a
non-empty but whitespace-only string, the emitter takes the annotation
branch (the fallback is not consulted and no warning is recorded) and
emits empty math delimiters: `$$ ` with the `inline` class, otherwise the
display block `\[`, empty line, `\]` and a blank line. -/
theorem C10_blank_ann (name : String) (classes : List String)
    (attrs : List (String × String)) (children : List Node) (a : Node) (s : String)
    (hname : lowerStr name = "ms-katex")
    (hfind : findDesc isTexAnn children = some a)
    (hstr : a.str = some s) (hne : s ≠ "") (hws : s.data.all isSpace) :
    html_to_latex (Node.tag name classes attrs children) =
      if classes.contains "inline" then ("$$ ", []) else ("\\[\n\n\\]\n\n", []) := by
  have htruthy : truthyStr (findDesc isTexAnn children) = some s := by
    rw [hfind]
    simp [truthyStr, hstr, hne]
  rw [html_to_latex_katex name classes attrs children hname, htruthy]
  show (if classes.contains "inline" then ("$" ++ pyStrip s ++ "$ ", ([] : List Warning))
      else ("\\[\n" ++ pyStrip s ++ "\n\\]\n\n", [])) = _
  rw [strip_of_all_space s hws]
  split <;> rfl

/-- Witness for C10: an annotation holding a single space emits empty
inline and display math for the two class shapes. -/
theorem C10_blank_ann_witness :
    html_to_latex (Node.tag "ms-katex" ["inline"] []
        [Node.tag "annotation" [] [("encoding", "application/x-tex")] [Node.navString " "]])
      = ("$$ ", []) ∧
    html_to_latex (Node.tag "ms-katex" [] []
        [Node.tag "annotation" [] [("encoding", "application/x-tex")] [Node.navString " "]])
      = ("\\[\n\n\\]\n\n", []) := by
  constructor
  · exact C10_blank_ann "ms-katex" ["inline"] []
      [Node.tag "annotation" [] [("encoding", "application/x-tex")] [Node.navString " "]]
      (Node.tag "annotation" [] [("encoding", "application/x-tex")] [Node.navString " "]) " "
      rfl rfl rfl (by decide) (by decide)
  · exact C10_blank_ann "ms-katex" [] []
      [Node.tag "annotation" [] [("encoding", "application/x-tex")] [Node.navString " "]]
      (Node.tag "annotation" [] [("encoding", "application/x-tex")] [Node.navString " "]) " "
      rfl rfl rfl (by decide) (by decide)

/-!
C1: the text-node emission, characterized against spec-side definitions.
`wordsWS` and `escSpec` follow the spec's wording (split into maximal
non-whitespace words rejoined by single spaces; escape the five special
characters by backslash-prefixing, preserving character order), and the
theorem equates the emitter's text-node behaviour with them.
-/

/-- Length of `dropWhile` never exceeds the input's. -/
lemma length_dropWhile_le (p : Char → Bool) (l : List Char) :
    (l.dropWhile p).length ≤ l.length := by
  induction l with
  | nil => simp
  | cons c cs ih =>
    by_cases h : p c
    · rw [List.dropWhile_cons_of_pos h]
      exact Nat.le_succ_of_le ih
    · rw [List.dropWhile_cons_of_neg h]

/-- Spec side: the words of a character list, the maximal runs of
non-whitespace characters, in order. -/
def wordsWS : List Char → List (List Char)
  | [] => []
  | c :: cs =>
    if h : isSpace c then wordsWS cs
    else ((c :: cs).takeWhile (fun x => !isSpace x)) ::
      wordsWS ((c :: cs).dropWhile (fun x => !isSpace x))
termination_by l => l.length
decreasing_by
  · simp
  · rw [List.dropWhile_cons_of_pos (by simpa using h)]
    have := length_dropWhile_le (fun x => !isSpace x) cs
    simp only [List.length_cons]
    omega

/-- Spec side: escaping one character: each of `% & _ # $` is prefixed
with a backslash, all other characters pass through. -/
def escSpec (c : Char) : List Char :=
  if c = '%' ∨ c = '&' ∨ c = '_' ∨ c = '#' ∨ c = '$' then ['\\', c] else [c]

/-- The right strip: drop trailing whitespace. -/
def rstrip (l : List Char) : List Char := (l.reverse.dropWhile isSpace).reverse

lemma stripChars_eq (l : List Char) : stripChars l = rstrip (lstrip l) := rfl

lemma lstrip_cons_ws {c : Char} (t : List Char) (h : isSpace c = true) :
    lstrip (c :: t) = lstrip t :=
  List.dropWhile_cons_of_pos h

lemma lstrip_cons_nonws {c : Char} (t : List Char) (h : isSpace c = false) :
    lstrip (c :: t) = c :: t :=
  List.dropWhile_cons_of_neg (by simp [h])

lemma rstrip_append (a b : List Char) :
    rstrip (a ++ b) = if (rstrip b).isEmpty then rstrip a else a ++ rstrip b := by
  by_cases h : (rstrip b).isEmpty = true
  · rw [if_pos h]
    have hb : b.reverse.dropWhile isSpace = [] := by
      unfold rstrip at h
      rw [List.isEmpty_iff, List.reverse_eq_nil_iff] at h
      exact h
    unfold rstrip
    rw [List.reverse_append, List.dropWhile_append, hb]
    simp
  · rw [if_neg h]
    have hb : ¬ (b.reverse.dropWhile isSpace).isEmpty = true := by
      intro hc
      apply h
      unfold rstrip
      rw [List.isEmpty_iff] at hc ⊢
      rw [hc, List.reverse_nil]
    unfold rstrip
    rw [List.reverse_append, List.dropWhile_append, if_neg hb, List.reverse_append,
      List.reverse_reverse]

lemma rstrip_nonws (w : List Char) (h : ∀ x ∈ w, isSpace x = false) : rstrip w = w := by
  unfold rstrip
  have h2 : w.reverse.dropWhile isSpace = w.reverse := by
    cases hw : w.reverse with
    | nil => rfl
    | cons c t =>
      have hc : c ∈ w := by
        have hmem : c ∈ w.reverse := by rw [hw]; exact List.mem_cons_self c t
        simpa using hmem
      rw [List.dropWhile_cons_of_neg (by simp [h c hc])]
  rw [h2, List.reverse_reverse]

lemma rstrip_all_ws (t : List Char) (h : ∀ x ∈ t, isSpace x = true) : rstrip t = [] := by
  unfold rstrip
  have h2 : t.reverse.dropWhile isSpace = [] := by
    rw [List.dropWhile_eq_nil_iff]
    intro x hx
    exact h x (by simpa using hx)
  rw [h2, List.reverse_nil]

lemma cw_false_cons_ws (c : Char) (x : List Char) (h : isSpace c = true) :
    cwAux false (c :: x) = ' ' :: cwAux true x := by
  simp [cwAux, h]

lemma cw_true_cons_ws (c : Char) (x : List Char) (h : isSpace c = true) :
    cwAux true (c :: x) = cwAux true x := by
  simp [cwAux, h]

lemma cw_cons_nonws (b : Bool) (c : Char) (x : List Char) (h : isSpace c = false) :
    cwAux b (c :: x) = c :: cwAux false x := by
  cases b <;> simp [cwAux, h]

lemma cw_append_nonws (w r : List Char) (h : ∀ x ∈ w, isSpace x = false) :
    cwAux false (w ++ r) = w ++ cwAux false r := by
  induction w with
  | nil => rfl
  | cons a t ih =>
    rw [List.cons_append, cw_cons_nonws false a _ (h a (List.mem_cons_self a t)),
      ih (fun x hx => h x (List.mem_cons_of_mem a hx)), List.cons_append]

lemma cw_true_skip (w r : List Char) (h : ∀ x ∈ w, isSpace x = true) :
    cwAux true (w ++ r) = cwAux true r := by
  induction w with
  | nil => rfl
  | cons a t ih =>
    rw [List.cons_append, cw_true_cons_ws a _ (h a (List.mem_cons_self a t)),
      ih (fun x hx => h x (List.mem_cons_of_mem a hx))]

lemma cw_true_head_nonws (c : Char) (t : List Char) (h : isSpace c = false) :
    cwAux true (c :: t) = cwAux false (c :: t) := by
  rw [cw_cons_nonws true c t h, cw_cons_nonws false c t h]

lemma lstrip_cw_true_false (cs : List Char) :
    lstrip (cwAux true cs) = lstrip (cwAux false cs) := by
  cases cs with
  | nil => rfl
  | cons d ds =>
    by_cases hd : isSpace d = true
    · rw [cw_true_cons_ws d ds hd, cw_false_cons_ws d ds hd, lstrip_cons_ws _ (by decide)]
    · rw [cw_true_head_nonws d ds (by simpa using hd)]

lemma wordsWS_nil : wordsWS [] = [] := by
  simp [wordsWS]

lemma wordsWS_cons_ws (c : Char) (cs : List Char) (h : isSpace c = true) :
    wordsWS (c :: cs) = wordsWS cs := by
  simp [wordsWS, h]

lemma wordsWS_cons_nonws (c : Char) (cs : List Char) (h : isSpace c = false) :
    wordsWS (c :: cs) = ((c :: cs).takeWhile (fun x => !isSpace x)) ::
      wordsWS ((c :: cs).dropWhile (fun x => !isSpace x)) := by
  simp [wordsWS, h]

lemma wordsWS_nil_of_all_ws (l : List Char) (h : ∀ x ∈ l, isSpace x = true) :
    wordsWS l = [] := by
  induction l with
  | nil => exact wordsWS_nil
  | cons c cs ih =>
    rw [wordsWS_cons_ws c cs (h c (List.mem_cons_self c cs))]
    exact ih (fun x hx => h x (List.mem_cons_of_mem c hx))

lemma wordsWS_lstrip (ds : List Char) : wordsWS (lstrip ds) = wordsWS ds := by
  induction ds with
  | nil => rfl
  | cons e es ih =>
    by_cases he : isSpace e = true
    · rw [lstrip_cons_ws _ he, wordsWS_cons_ws e es he]
      exact ih
    · rw [lstrip_cons_nonws _ (by simpa using he)]

lemma intercalate_nil : List.intercalate [' '] ([] : List (List Char)) = [] := by
  simp [List.intercalate]

lemma intercalate_singleton (x : List Char) : List.intercalate [' '] [x] = x := by
  simp [List.intercalate]

lemma intercalate_cons_of_ne (x : List Char) (W : List (List Char)) (h : W ≠ []) :
    List.intercalate [' '] (x :: W) = x ++ ' ' :: List.intercalate [' '] W := by
  obtain ⟨y, t, rfl⟩ := List.exists_cons_of_ne_nil h
  simp [List.intercalate, List.intersperse_cons_cons]

lemma intercalate_words_ne_nil (c : Char) (cs : List Char) (h : isSpace c = false) :
    List.intercalate [' '] (wordsWS (c :: cs)) ≠ [] := by
  rw [wordsWS_cons_nonws c cs h, List.takeWhile_cons_of_pos (by simp [h])]
  cases hW : wordsWS ((c :: cs).dropWhile fun x => !isSpace x) with
  | nil => simp [intercalate_singleton]
  | cons y t =>
    rw [intercalate_cons_of_ne _ _ (by simp)]
    simp

/-- The collapse-then-strip of `clean_text` equals splitting into words
and rejoining with single spaces. -/
theorem clean_core : ∀ l : List Char,
    stripChars (collapseWs l) = List.intercalate [' '] (wordsWS l)
  | [] => by
    rw [wordsWS_nil, intercalate_nil]
    rfl
  | c :: cs => by
    by_cases hc : isSpace c = true
    · have ih := clean_core cs
      rw [wordsWS_cons_ws c cs hc]
      show rstrip (lstrip (cwAux false (c :: cs))) = _
      rw [cw_false_cons_ws c cs hc, lstrip_cons_ws _ (by decide), lstrip_cw_true_false cs]
      exact ih
    · have hcF : isSpace c = false := by simpa using hc
      have hw : ∀ x ∈ (c :: cs).takeWhile (fun x => !isSpace x), isSpace x = false := by
        intro x hx
        simpa using List.mem_takeWhile_imp hx
      have hwcons : (c :: cs).takeWhile (fun x => !isSpace x)
          = c :: cs.takeWhile (fun x => !isSpace x) :=
        List.takeWhile_cons_of_pos (by simp [hcF])
      have hsplit : (c :: cs).takeWhile (fun x => !isSpace x)
          ++ (c :: cs).dropWhile (fun x => !isSpace x) = c :: cs :=
        List.takeWhile_append_dropWhile (fun x => !isSpace x) (c :: cs)
      rw [wordsWS_cons_nonws c cs hcF]
      show rstrip (lstrip (cwAux false (c :: cs))) = _
      conv_lhs => rw [← hsplit]
      rw [cw_append_nonws _ _ hw]
      have hlst : lstrip ((c :: cs).takeWhile (fun x => !isSpace x)
          ++ cwAux false ((c :: cs).dropWhile (fun x => !isSpace x)))
          = (c :: cs).takeWhile (fun x => !isSpace x)
            ++ cwAux false ((c :: cs).dropWhile (fun x => !isSpace x)) := by
        rw [hwcons, List.cons_append, lstrip_cons_nonws _ hcF]
      rw [hlst]
      cases hrest : (c :: cs).dropWhile (fun x => !isSpace x) with
      | nil =>
        rw [show cwAux false ([] : List Char) = [] from rfl, List.append_nil,
          rstrip_nonws _ hw, wordsWS_nil, intercalate_singleton]
      | cons d ds =>
        have hdws : isSpace d = true := by
          have h0 := List.head?_dropWhile_not (fun x => !isSpace x) (c :: cs)
          rw [hrest] at h0
          simpa using h0
        rw [cw_false_cons_ws d ds hdws, wordsWS_cons_ws d ds hdws, ← wordsWS_lstrip ds]
        have h3 : cwAux true ds = cwAux true (lstrip ds) := by
          conv_lhs => rw [← List.takeWhile_append_dropWhile isSpace ds]
          exact cw_true_skip _ _ (fun x hx => List.mem_takeWhile_imp hx)
        rw [h3]
        cases hr2 : lstrip ds with
        | nil =>
          rw [show cwAux true ([] : List Char) = [] from rfl, wordsWS_nil,
            intercalate_singleton]
          rw [show (' ' :: ([] : List Char)) = [' '] from rfl, rstrip_append]
          rw [if_pos (by rw [rstrip_all_ws [' ']
            (by intro x hx; simp at hx; subst hx; rfl)]; rfl)]
          exact rstrip_nonws _ hw
        | cons e es =>
          have hews : isSpace e = false := by
            have h0 := List.head?_dropWhile_not isSpace ds
            rw [show ds.dropWhile isSpace = e :: es from hr2] at h0
            simpa using h0
          rw [cw_true_head_nonws e es hews]
          have ih2 := clean_core (e :: es)
          have h6 : rstrip (cwAux false (e :: es))
              = List.intercalate [' '] (wordsWS (e :: es)) := by
            have h5 : lstrip (cwAux false (e :: es)) = cwAux false (e :: es) := by
              rw [cw_cons_nonws false e es hews]
              exact lstrip_cons_nonws _ hews
            rw [← h5]
            exact ih2
          have hne : (rstrip (cwAux false (e :: es))).isEmpty = false := by
            cases hI : (rstrip (cwAux false (e :: es))).isEmpty with
            | false => rfl
            | true =>
              rw [h6] at hI
              exact absurd (List.isEmpty_iff.mp hI) (intercalate_words_ne_nil e es hews)
          have h7 : rstrip (' ' :: cwAux false (e :: es))
              = ' ' :: rstrip (cwAux false (e :: es)) := by
            rw [show (' ' :: cwAux false (e :: es)) = [' '] ++ cwAux false (e :: es) from rfl,
              rstrip_append, hne]
            simp
          have h8 : rstrip ((c :: cs).takeWhile (fun x => !isSpace x)
              ++ ' ' :: cwAux false (e :: es))
              = (c :: cs).takeWhile (fun x => !isSpace x)
                ++ ' ' :: rstrip (cwAux false (e :: es)) := by
            rw [rstrip_append, h7]
            simp
          rw [h8, h6, intercalate_cons_of_ne _ _ (by
            intro hcon
            rw [h6, hcon, intercalate_nil] at hne
            simp at hne)]
termination_by l => l.length
decreasing_by
  · simp
  · have ha : (e :: es).length ≤ ds.length := by
      rw [← hr2]
      exact length_dropWhile_le isSpace ds
    have hb : (d :: ds).length ≤ cs.length := by
      rw [← hrest, List.dropWhile_cons_of_pos (by simp [hcF])]
      exact length_dropWhile_le (fun x => !isSpace x) cs
    simp only [List.length_cons] at ha hb ⊢
    omega

/-- The sequence of five `replace` calls over an arbitrary list. -/
def escChain (l : List Char) : List Char :=
  replaceCh '$' ['\\', '$'] (replaceCh '#' ['\\', '#'] (replaceCh '_' ['\\', '_']
    (replaceCh '&' ['\\', '&'] (replaceCh '%' ['\\', '%'] l))))

lemma replaceCh_append (a : Char) (rep : List Char) (x y : List Char) :
    replaceCh a rep (x ++ y) = replaceCh a rep x ++ replaceCh a rep y :=
  List.flatMap_append x y _

lemma escChain_append (x y : List Char) :
    escChain (x ++ y) = escChain x ++ escChain y := by
  simp [escChain, replaceCh_append]

lemma escChain_singleton (c : Char) : escChain [c] = escSpec c := by
  by_cases h1 : c = '%'
  · subst h1; rfl
  by_cases h2 : c = '&'
  · subst h2; rfl
  by_cases h3 : c = '_'
  · subst h3; rfl
  by_cases h4 : c = '#'
  · subst h4; rfl
  by_cases h5 : c = '$'
  · subst h5; rfl
  simp [escChain, replaceCh, escSpec, h1, h2, h3, h4, h5]

/-- The five sequential single-character replacements equal a single
order-preserving pass escaping each special character. -/
theorem escChain_eq (l : List Char) : escChain l = l.flatMap escSpec := by
  induction l with
  | nil => rfl
  | cons c cs ih =>
    have hsplit : escChain (c :: cs) = escChain [c] ++ escChain cs := by
      rw [show (c :: cs) = [c] ++ cs from rfl, escChain_append]
    rw [hsplit, escChain_singleton, ih]
    exact (List.flatMap_cons c cs escSpec).symm

/-- C1. For every text node: the emitter collapses every whitespace run
in its content to a single space and trims the ends (equivalently, the
content is split into maximal non-whitespace words rejoined by single
spaces), escapes each of `% & _ # $` with a backslash preserving
character order, and emits the result followed by exactly one trailing
space when it is non-empty, and nothing when it is empty; no warning is
recorded. Whitespace-only content therefore emits nothing. -/
theorem C1_text_node_emission (s : String) :
    (html_to_latex (Node.navString s) =
      (let r : String := ⟨(List.intercalate [' '] (wordsWS s.data)).flatMap escSpec⟩
       if r ≠ "" then r ++ " " else "", [])) ∧
    (s.data.all isSpace → html_to_latex (Node.navString s) = ("", [])) := by
  have hclean : clean_text s = (⟨List.intercalate [' '] (wordsWS s.data)⟩ : String) := by
    show (⟨stripChars (collapseWs s.data)⟩ : String) = _
    rw [clean_core s.data]
  have hesc : escapeLatex (clean_text s)
      = (⟨(List.intercalate [' '] (wordsWS s.data)).flatMap escSpec⟩ : String) := by
    rw [hclean]
    show (⟨escChain (List.intercalate [' '] (wordsWS s.data))⟩ : String) = _
    rw [escChain_eq]
  constructor
  · rw [html_to_latex]
    show (if escapeLatex (clean_text s) ≠ "" then escapeLatex (clean_text s) ++ " " else "",
      ([] : List Warning)) = _
    rw [hesc]
  · intro hws
    have h0 : wordsWS s.data = [] :=
      wordsWS_nil_of_all_ws _ (fun x hx => List.all_eq_true.mp hws x hx)
    rw [html_to_latex]
    show (if escapeLatex (clean_text s) ≠ "" then escapeLatex (clean_text s) ++ " " else "",
      ([] : List Warning)) = _
    rw [hesc, h0, intercalate_nil]
    rfl

/-- Witness for C1: a whitespace-only text node emits nothing; and the
spec's escaping example emits with each special character escaped in
order and one trailing space. -/
theorem C1_text_node_emission_witness :
    html_to_latex (Node.navString " \t\n ") = ("", []) ∧
    html_to_latex (Node.navString " 100% &  #5_a  $x$ ")
      = ("100\\% \\& \\#5\\_a \\$x\\$ ", []) :=
  ⟨(C1_text_node_emission " \t\n ").2 (by decide), rfl⟩

/-!
C8: the emitter is a pure function of its subtree whose only effect is
appending diagnostics to the warning channel. `emitM` threads the
channel state explicitly; the theorem shows it refines the pure
`html_to_latex`: the emitted string does not depend on the channel
state, and the channel is only ever appended to, in print order. In
this embedding the tree is immutable data, so emission cannot mutate it,
and determinism is definitional.
-/

mutual

theorem emitM_log_append : ∀ (n : Node) (log : List Warning),
    emitM n log = ((html_to_latex n).1, log ++ (html_to_latex n).2)
  | .navString s, log => by
    rw [emitM, html_to_latex]
    simp
  | .tag name classes attrs children, log => by
    have hch := childrenM_log_append children log
    by_cases h1 : lowerStr name = "p"
    · simp [emitM, html_to_latex, h1, hch]
    · by_cases h2 : lowerStr name = "span"
      · simp [emitM, html_to_latex, h1, h2, hch]
      · by_cases h3 : lowerStr name = "ms-katex"
        · cases hA : truthyStr (findDesc isTexAnn children) with
          | some s =>
            by_cases hin : "inline" ∈ classes
            · simp [emitM, html_to_latex, h1, h2, h3, hA, hin]
            · simp [emitM, html_to_latex, h1, h2, h3, hA, hin]
          | none =>
            cases hC : truthyStr (findDesc isCodeTag children) with
            | some s => simp [emitM, html_to_latex, h1, h2, h3, hA, hC]
            | none => simp [emitM, html_to_latex, h1, h2, h3, hA, hC]
        · by_cases h4 : lowerStr name = "br"
          · simp [emitM, html_to_latex, h1, h2, h3, h4]
          · by_cases h5 : lowerStr name = "ol"
            · simp [emitM, html_to_latex, h1, h2, h3, h4, h5, hch]
            · by_cases h6 : lowerStr name = "li"
              · simp [emitM, html_to_latex, h1, h2, h3, h4, h5, h6, hch]
              · by_cases h7 : lowerStr name = "div"
                    ∧ "mat-expansion-panel-body" ∈ classes
                · simp [emitM, html_to_latex, h1, h2, h3, h4, h5, h6, h7, hch]
                · by_cases h8 : lowerStr name ∈ passthroughTags
                  · simp [emitM, html_to_latex, h1, h2, h3, h4, h5, h6, h7, h8, hch]
                  · have hch2 := childrenM_log_append children
                      (log ++ [Warning.unhandledTag (lowerStr name)])
                    simp [emitM, html_to_latex, h1, h2, h3, h4, h5, h6, h7, h8, hch2]

theorem childrenM_log_append : ∀ (ns : List Node) (log : List Warning),
    childrenM ns log = ((childrenLatex ns).1, log ++ (childrenLatex ns).2)
  | [], log => by
    rw [childrenM, childrenLatex]
    simp
  | n :: rest, log => by
    have h1 := emitM_log_append n log
    have h2 := childrenM_log_append rest (log ++ (html_to_latex n).2)
    simp [childrenM, childrenLatex, h1, h2]

end

/-- C8. Emission is a deterministic pure function of the input subtree:
with the diagnostics channel made explicit, running the emitter from any
channel state yields exactly the string computed by the pure
`html_to_latex` (independent of the channel), and its only effect is to
append that node's warnings to the channel in print order. The tree is
immutable data in this embedding, so emission does not mutate it. -/
theorem C8_emitter_pure (t : Node) (log : List Warning) :
    emitM t log = ((html_to_latex t).1, log ++ (html_to_latex t).2) :=
  emitM_log_append t log

/-!
Invariants of the post-processor, used by C4, C7 and C9. Each predicate
scans the suffixes of a character list for a forbidden local pattern.
-/

/-- Head of the list is a punctuation character. -/
def headIsPunct : List Char → Bool
  | [] => false
  | c :: _ => isPunct c

/-- No whitespace character immediately precedes a punctuation character. -/
def noWsBP : List Char → Bool
  | [] => true
  | c :: cs => !(isSpace c && headIsPunct cs) && noWsBP cs

/-- No whitespace character immediately precedes a `\item` token. -/
def noWsBI : List Char → Bool
  | [] => true
  | c :: cs => !(isSpace c && startsWithItem cs) && noWsBI cs

/-- Does the list start with three consecutive newlines? -/
def startsTriple : List Char → Bool
  | '\n' :: '\n' :: '\n' :: _ => true
  | _ => false

/-- No three consecutive newline characters anywhere. -/
def noTripleNl : List Char → Bool
  | [] => true
  | c :: cs => !(startsTriple (c :: cs)) && noTripleNl cs

/-- Walking only whitespace, is a newline reachable? -/
def nlReachable : List Char → Bool
  | [] => false
  | c :: cs => if c = '\n' then true else (isSpace c && nlReachable cs)

/-- No blank line: no newline is followed, through whitespace only, by
another newline. -/
def noBlankRun : List Char → Bool
  | [] => true
  | c :: cs => !(c = '\n' && nlReachable cs) && noBlankRun cs

lemma punct_char_cases {c : Char} (h : isPunct c = true) :
    c = '.' ∨ c = ',' ∨ c = ';' ∨ c = ':' ∨ c = '!' ∨ c = '?' := by
  simp [isPunct] at h
  tauto

lemma not_punct_of_space {c : Char} (h : isSpace c = true) : isPunct c = false := by
  cases hp : isPunct c with
  | false => rfl
  | true =>
    rcases punct_char_cases hp with h2|h2|h2|h2|h2|h2 <;> subst h2 <;>
      exact absurd h (by decide)

lemma not_space_of_nonws_nl {c : Char} (h : isSpace c = false) : c ≠ '\n' := by
  intro hc
  subst hc
  exact absurd h (by decide)

lemma swi_shape {l : List Char} (h : startsWithItem l = true) :
    ∃ t, l = '\\' :: 'i' :: 't' :: 'e' :: 'm' :: t := by
  rw [startsWithItem.eq_def] at h
  split at h
  · exact ⟨_, rfl⟩
  · simp at h

lemma swi_head {l : List Char} (h : startsWithItem l = true) : l.head? = some '\\' := by
  obtain ⟨t, rfl⟩ := swi_shape h
  rfl

lemma swi_of_ws_head {c : Char} {cs : List Char} (h : isSpace c = true) :
    startsWithItem (c :: cs) = false := by
  cases hs : startsWithItem (c :: cs) with
  | false => rfl
  | true =>
    have h2 := swi_head hs
    simp at h2
    subst h2
    exact absurd h (by decide)

lemma swi_append {xs ys : List Char} (h : startsWithItem xs = true) :
    startsWithItem (xs ++ ys) = true := by
  obtain ⟨t, rfl⟩ := swi_shape h
  rfl

lemma startsTriple_shape {l : List Char} (h : startsTriple l = true) :
    ∃ t, l = '\n' :: '\n' :: '\n' :: t := by
  rw [startsTriple.eq_def] at h
  split at h
  · exact ⟨_, rfl⟩
  · simp at h

lemma startsTriple_append {xs ys : List Char} (h : startsTriple xs = true) :
    startsTriple (xs ++ ys) = true := by
  obtain ⟨t, rfl⟩ := startsTriple_shape h
  rfl

/-! Suffix and prefix closure for the four predicates. -/

lemma noWsBP_tail {c : Char} {cs : List Char} (h : noWsBP (c :: cs) = true) :
    noWsBP cs = true := by
  simp [noWsBP] at h
  exact h.2

lemma noWsBP_append_right {xs ys : List Char} (h : noWsBP (xs ++ ys) = true) :
    noWsBP ys = true := by
  induction xs with
  | nil => exact h
  | cons c t ih => exact ih (noWsBP_tail h)

lemma headIsPunct_append {xs ys : List Char} (h : headIsPunct xs = true) :
    headIsPunct (xs ++ ys) = true := by
  cases xs with
  | nil => simp [headIsPunct] at h
  | cons a t => exact h

lemma noWsBP_append_left {xs ys : List Char} (h : noWsBP (xs ++ ys) = true) :
    noWsBP xs = true := by
  induction xs with
  | nil => rfl
  | cons c t ih =>
    have h2 := noWsBP_tail h
    simp only [noWsBP, Bool.and_eq_true, Bool.not_eq_true'] at h ⊢
    refine ⟨?_, (ih h2)⟩
    cases hb : (isSpace c && headIsPunct t) with
    | false => rfl
    | true =>
      simp only [Bool.and_eq_true] at hb
      have h3 := @headIsPunct_append _ ys hb.2
      simp [hb.1, h3] at h

lemma noWsBI_tail {c : Char} {cs : List Char} (h : noWsBI (c :: cs) = true) :
    noWsBI cs = true := by
  simp [noWsBI] at h
  exact h.2

lemma noWsBI_append_right {xs ys : List Char} (h : noWsBI (xs ++ ys) = true) :
    noWsBI ys = true := by
  induction xs with
  | nil => exact h
  | cons c t ih => exact ih (noWsBI_tail h)

lemma noWsBI_append_left {xs ys : List Char} (h : noWsBI (xs ++ ys) = true) :
    noWsBI xs = true := by
  induction xs with
  | nil => rfl
  | cons c t ih =>
    have h2 := noWsBI_tail h
    simp only [noWsBI, Bool.and_eq_true, Bool.not_eq_true'] at h ⊢
    refine ⟨?_, (ih h2)⟩
    cases hb : (isSpace c && startsWithItem t) with
    | false => rfl
    | true =>
      simp only [Bool.and_eq_true] at hb
      have h3 := @swi_append _ ys hb.2
      simp [hb.1, h3] at h

lemma noTripleNl_tail {c : Char} {cs : List Char} (h : noTripleNl (c :: cs) = true) :
    noTripleNl cs = true := by
  simp [noTripleNl] at h
  exact h.2

lemma noTripleNl_append_right {xs ys : List Char} (h : noTripleNl (xs ++ ys) = true) :
    noTripleNl ys = true := by
  induction xs with
  | nil => exact h
  | cons c t ih => exact ih (noTripleNl_tail h)

lemma noTripleNl_append_left {xs ys : List Char} (h : noTripleNl (xs ++ ys) = true) :
    noTripleNl xs = true := by
  induction xs with
  | nil => rfl
  | cons c t ih =>
    have h2 := noTripleNl_tail h
    simp only [noTripleNl, Bool.and_eq_true, Bool.not_eq_true'] at h ⊢
    refine ⟨?_, (ih h2)⟩
    cases hb : startsTriple (c :: t) with
    | false => rfl
    | true =>
      have h3 := @startsTriple_append _ ys hb
      rw [List.cons_append] at h3
      simp [h3] at h

lemma nlReachable_append {xs ys : List Char} (h : nlReachable xs = true) :
    nlReachable (xs ++ ys) = true := by
  induction xs with
  | nil => simp [nlReachable] at h
  | cons c t ih =>
    simp only [nlReachable] at h ⊢
    by_cases hc : c = '\n'
    · simp [hc]
    · simp only [if_neg hc, Bool.and_eq_true] at h ⊢
      exact ⟨h.1, ih h.2⟩

lemma noBlankRun_tail {c : Char} {cs : List Char} (h : noBlankRun (c :: cs) = true) :
    noBlankRun cs = true := by
  simp [noBlankRun] at h
  exact h.2

lemma noBlankRun_append_right {xs ys : List Char} (h : noBlankRun (xs ++ ys) = true) :
    noBlankRun ys = true := by
  induction xs with
  | nil => exact h
  | cons c t ih => exact ih (noBlankRun_tail h)

lemma noBlankRun_append_left {xs ys : List Char} (h : noBlankRun (xs ++ ys) = true) :
    noBlankRun xs = true := by
  induction xs with
  | nil => rfl
  | cons c t ih =>
    have h2 := noBlankRun_tail h
    simp only [noBlankRun, Bool.and_eq_true, Bool.not_eq_true'] at h ⊢
    refine ⟨?_, (ih h2)⟩
    cases hb : (decide (c = '\n') && nlReachable t) with
    | false => rfl
    | true =>
      simp only [Bool.and_eq_true, decide_eq_true_eq] at hb
      have h3 := @nlReachable_append _ ys hb.2
      simp [hb.1, h3] at h

/-! Whitespace-run facts and the behaviour of `trimRun` on blank-free runs. -/

lemma noWsBP_of_all_ws (w : List Char) (h : ∀ x ∈ w, isSpace x = true) :
    noWsBP w = true := by
  induction w with
  | nil => rfl
  | cons c t ih =>
    simp only [noWsBP, Bool.and_eq_true, Bool.not_eq_true']
    refine ⟨?_, ih (fun x hx => h x (List.mem_cons_of_mem c hx))⟩
    cases t with
    | nil => simp [headIsPunct]
    | cons d u =>
      have hd := h d (by simp)
      simp [headIsPunct, not_punct_of_space hd]

lemma noWsBI_of_all_ws (w : List Char) (h : ∀ x ∈ w, isSpace x = true) :
    noWsBI w = true := by
  induction w with
  | nil => rfl
  | cons c t ih =>
    simp only [noWsBI, Bool.and_eq_true, Bool.not_eq_true']
    refine ⟨?_, ih (fun x hx => h x (List.mem_cons_of_mem c hx))⟩
    cases t with
    | nil =>
      rw [show startsWithItem [] = false from rfl]
      simp
    | cons d u =>
      have hd := h d (by simp)
      simp [swi_of_ws_head hd]

lemma nlReachable_false_of_no_nl (w : List Char) (h : w.count '\n' = 0) :
    nlReachable w = false := by
  induction w with
  | nil => rfl
  | cons c t ih =>
    have hc : c ≠ '\n' := by
      intro hc
      subst hc
      rw [List.count_cons] at h
      simp at h
    have ht : t.count '\n' = 0 := by
      rw [List.count_cons] at h
      simp [hc] at h
      exact h
    simp [nlReachable, hc, ih ht]

lemma nlReachable_of_nl (w : List Char) (hws : ∀ x ∈ w, isSpace x = true)
    (h : 0 < w.count '\n') : nlReachable w = true := by
  induction w with
  | nil => simp at h
  | cons c t ih =>
    by_cases hc : c = '\n'
    · simp [nlReachable, hc]
    · have ht : 0 < t.count '\n' := by
        rw [List.count_cons] at h
        simpa [hc] using h
      simp [nlReachable, hc, hws c (by simp),
        ih (fun x hx => hws x (by simp [hx])) ht]

lemma count_nl_le_one_of_noBlank (R : List Char) (hws : ∀ x ∈ R, isSpace x = true)
    (h : noBlankRun R = true) : R.count '\n' ≤ 1 := by
  induction R with
  | nil => simp
  | cons c t ih =>
    simp only [noBlankRun, Bool.and_eq_true, Bool.not_eq_true'] at h
    by_cases hc : c = '\n'
    · subst hc
      have hr : nlReachable t = false := by
        cases hn : nlReachable t with
        | false => rfl
        | true => simp [hn] at h
      have ht : t.count '\n' = 0 := by
        by_contra hpos
        rw [nlReachable_of_nl t (fun x hx => hws x (by simp [hx]))
          (Nat.pos_of_ne_zero hpos)] at hr
        simp at hr
      rw [List.count_cons]
      simp [ht]
    · have h2 := ih (fun x hx => hws x (by simp [hx])) h.2
      rw [List.count_cons]
      simp [hc]
      omega

lemma noBlank_of_no_nl (w : List Char) (h : w.count '\n' = 0) :
    noBlankRun w = true := by
  induction w with
  | nil => rfl
  | cons c t ih =>
    have hc : c ≠ '\n' := by
      intro hc
      subst hc
      rw [List.count_cons] at h
      simp at h
    have ht : t.count '\n' = 0 := by
      rw [List.count_cons] at h
      simp [hc] at h
      exact h
    simp only [noBlankRun, Bool.and_eq_true, Bool.not_eq_true']
    exact ⟨by simp [hc], ih ht⟩

lemma two_nl_of_adj : ∀ (R : List Char) (j : Nat), R.getD j ' ' = '\n' →
    R.getD (j+1) ' ' = '\n' → j + 1 < R.length → 2 ≤ R.count '\n'
  | [], j, _, _, h3 => by simp at h3
  | c :: rs, 0, h1, h2, h3 => by
    rw [List.getD_cons_zero] at h1
    rw [List.getD_cons_succ] at h2
    subst h1
    cases rs with
    | nil => simp at h3
    | cons d u =>
      rw [List.getD_cons_zero] at h2
      subst h2
      rw [List.count_cons, List.count_cons]
      simp
  | c :: rs, j+1, h1, h2, h3 => by
    rw [List.getD_cons_succ] at h1
    rw [List.getD_cons_succ] at h2
    have h4 := two_nl_of_adj rs j h1 h2 (by simpa using h3)
    rw [List.count_cons]
    omega

lemma validJ_false_of_count {R : List Char} (h : R.count '\n' ≤ 1) (j : Nat) :
    validJ R false j = false := by
  cases hv : validJ R false j with
  | false => rfl
  | true =>
    exfalso
    unfold validJ at hv
    simp only [Bool.and_eq_true, decide_eq_true_eq] at hv
    obtain ⟨⟨hj1, hj2⟩, hv3⟩ := hv
    by_cases he : j + 1 = R.length
    · rw [if_pos he] at hv3
      simp at hv3
    · rw [if_neg he] at hv3
      simp only [decide_eq_true_eq] at hv3
      have hlt : j + 1 < R.length := by
        by_contra hge
        have hle : R.length ≤ j + 1 := by omega
        rw [List.getD_eq_default _ _ hle] at hv3
        exact absurd hv3 (by decide)
      exact absurd (two_nl_of_adj R j hj2 hv3 hlt) (by omega)

lemma trimRun_id_of_count {R : List Char} (h : R.count '\n' ≤ 1) :
    trimRun R false = R := by
  unfold trimRun lastValidJ
  rw [show (List.range R.length).filter (validJ R false) = [] from
    List.filter_eq_nil_iff.mpr (fun j _ => by simp [validJ_false_of_count h j])]
  rfl

lemma lastValidJ_spec {R : List Char} {atEnd : Bool} {j : Nat}
    (h : lastValidJ R atEnd = some j) : j < R.length ∧ validJ R atEnd j = true := by
  unfold lastValidJ at h
  have h2 : j ∈ ((List.range R.length).filter (validJ R atEnd)).getLast? := by
    rw [Option.mem_def]
    exact h
  obtain ⟨hne, heq⟩ := List.mem_getLast?_eq_getLast h2
  have hmem : j ∈ (List.range R.length).filter (validJ R atEnd) := by
    rw [heq]
    exact List.getLast_mem hne
  rw [List.mem_filter, List.mem_range] at hmem
  exact hmem

lemma trimRun_all_ws {R : List Char} (atEnd : Bool) (h : ∀ x ∈ R, isSpace x = true) :
    ∀ x ∈ trimRun R atEnd, isSpace x = true := by
  unfold trimRun
  cases hl : lastValidJ R atEnd with
  | none => exact h
  | some j =>
    intro x hx
    rcases List.mem_cons.mp hx with h1 | h1
    · subst h1
      decide
    · exact h x (List.drop_subset (j+1) R h1)

lemma nl_mem_take : ∀ (R : List Char) (j : Nat), j < R.length → R.getD j ' ' = '\n' →
    '\n' ∈ R.take (j+1)
  | [], j, h, _ => by simp at h
  | c :: rs, 0, _, h => by
    rw [List.getD_cons_zero] at h
    subst h
    simp
  | c :: rs, j+1, hlt, h => by
    rw [List.getD_cons_succ] at h
    have h2 := nl_mem_take rs j (by simpa using hlt) h
    simp [List.take_succ_cons]
    right
    exact h2

lemma trimRun_noBlank {R : List Char} (atEnd : Bool) (hws : ∀ x ∈ R, isSpace x = true)
    (h : noBlankRun R = true) : noBlankRun (trimRun R atEnd) = true := by
  have hcount := count_nl_le_one_of_noBlank R hws h
  unfold trimRun
  cases hl : lastValidJ R atEnd with
  | none => exact h
  | some j =>
    obtain ⟨hjlt, hvj⟩ := lastValidJ_spec hl
    have hnl : R.getD j ' ' = '\n' := by
      unfold validJ at hvj
      simp only [Bool.and_eq_true, decide_eq_true_eq] at hvj
      exact hvj.1.2
    have hdrop : (R.drop (j+1)).count '\n' = 0 := by
      have hmem := nl_mem_take R j hjlt hnl
      have h1 : 0 < (R.take (j+1)).count '\n' := List.count_pos_iff.mpr hmem
      have hc : (R.take (j+1)).count '\n' + (R.drop (j+1)).count '\n' = R.count '\n' := by
        rw [← List.count_append, List.take_append_drop]
      omega
    simp only [noBlankRun, Bool.and_eq_true, Bool.not_eq_true']
    exact ⟨by simp [nlReachable_false_of_no_nl _ hdrop], noBlank_of_no_nl _ hdrop⟩

/-! Stripping preserves the four invariants (it only removes characters
at the two ends). -/

lemma lstrip_decomp (l : List Char) : l = l.takeWhile isSpace ++ lstrip l :=
  (List.takeWhile_append_dropWhile isSpace l).symm

lemma rstrip_decomp (l : List Char) :
    l = rstrip l ++ (l.reverse.takeWhile isSpace).reverse := by
  conv_lhs => rw [← List.reverse_reverse l,
    ← List.takeWhile_append_dropWhile isSpace l.reverse]
  rw [List.reverse_append]
  rfl

lemma noWsBP_strip {l : List Char} (h : noWsBP l = true) :
    noWsBP (stripChars l) = true := by
  have h1 : noWsBP (lstrip l) = true :=
    @noWsBP_append_right (l.takeWhile isSpace) _ (by rw [← lstrip_decomp l]; exact h)
  have h2 : noWsBP (rstrip (lstrip l) ++ ((lstrip l).reverse.takeWhile isSpace).reverse)
      = true := by
    rw [← rstrip_decomp (lstrip l)]
    exact h1
  exact noWsBP_append_left h2

lemma noWsBI_strip {l : List Char} (h : noWsBI l = true) :
    noWsBI (stripChars l) = true := by
  have h1 : noWsBI (lstrip l) = true :=
    @noWsBI_append_right (l.takeWhile isSpace) _ (by rw [← lstrip_decomp l]; exact h)
  have h2 : noWsBI (rstrip (lstrip l) ++ ((lstrip l).reverse.takeWhile isSpace).reverse)
      = true := by
    rw [← rstrip_decomp (lstrip l)]
    exact h1
  exact noWsBI_append_left h2

lemma noTripleNl_strip {l : List Char} (h : noTripleNl l = true) :
    noTripleNl (stripChars l) = true := by
  have h1 : noTripleNl (lstrip l) = true :=
    @noTripleNl_append_right (l.takeWhile isSpace) _ (by rw [← lstrip_decomp l]; exact h)
  have h2 : noTripleNl (rstrip (lstrip l) ++ ((lstrip l).reverse.takeWhile isSpace).reverse)
      = true := by
    rw [← rstrip_decomp (lstrip l)]
    exact h1
  exact noTripleNl_append_left h2

lemma noBlankRun_strip {l : List Char} (h : noBlankRun l = true) :
    noBlankRun (stripChars l) = true := by
  have h1 : noBlankRun (lstrip l) = true :=
    @noBlankRun_append_right (l.takeWhile isSpace) _ (by rw [← lstrip_decomp l]; exact h)
  have h2 : noBlankRun (rstrip (lstrip l) ++ ((lstrip l).reverse.takeWhile isSpace).reverse)
      = true := by
    rw [← rstrip_decomp (lstrip l)]
    exact h1
  exact noBlankRun_append_left h2

/-! Prepending a whitespace run to an invariant-satisfying list. -/

lemma noWsBP_ws_append (w r : List Char) (hw : ∀ x ∈ w, isSpace x = true)
    (hr : noWsBP r = true) (hh : headIsPunct r = false) : noWsBP (w ++ r) = true := by
  induction w with
  | nil => exact hr
  | cons c t ih =>
    simp only [List.cons_append, noWsBP, Bool.and_eq_true, Bool.not_eq_true']
    refine ⟨?_, ih (fun x hx => hw x (by simp [hx]))⟩
    cases t with
    | nil => simp [hh]
    | cons d u =>
      have hd := hw d (by simp)
      simp [headIsPunct, not_punct_of_space hd]

lemma noWsBI_ws_append (w r : List Char) (hw : ∀ x ∈ w, isSpace x = true)
    (hr : noWsBI r = true) (hh : startsWithItem r = false) : noWsBI (w ++ r) = true := by
  induction w with
  | nil => exact hr
  | cons c t ih =>
    simp only [List.cons_append, noWsBI, Bool.and_eq_true, Bool.not_eq_true']
    refine ⟨?_, ih (fun x hx => hw x (by simp [hx]))⟩
    cases t with
    | nil => simp [hh]
    | cons d u =>
      have hd := hw d (by simp)
      simp [swi_of_ws_head hd]

lemma nlReachable_append_false {t r : List Char} (ht : t.count '\n' = 0)
    (hr : nlReachable r = false) : nlReachable (t ++ r) = false := by
  induction t with
  | nil => exact hr
  | cons c u ih =>
    have hc : c ≠ '\n' := by
      intro hc
      subst hc
      rw [List.count_cons] at ht
      simp at ht
    have hu : u.count '\n' = 0 := by
      rw [List.count_cons] at ht
      simpa [hc] using ht
    simp [nlReachable, hc, ih hu]

lemma nlReachable_cons_nonws {c : Char} (x : List Char) (h : isSpace c = false) :
    nlReachable (c :: x) = false := by
  simp [nlReachable, not_space_of_nonws_nl h, h]

lemma noBlankRun_ws_append (w r : List Char) (hw : ∀ x ∈ w, isSpace x = true)
    (hcnt : w.count '\n' ≤ 1) (hr : noBlankRun r = true)
    (hhr : nlReachable r = false) : noBlankRun (w ++ r) = true := by
  induction w with
  | nil => exact hr
  | cons c t ih
  =>
    simp only [List.cons_append, noBlankRun, Bool.and_eq_true, Bool.not_eq_true']
    by_cases hc : c = '\n'
    · subst hc
      have ht : t.count '\n' = 0 := by
        rw [List.count_cons] at hcnt
        simp at hcnt
        omega
      refine ⟨?_, ih (fun x hx => hw x (by simp [hx])) (by omega)⟩
      simp [nlReachable_append_false ht hhr]
    · refine ⟨by simp [hc], ih (fun x hx => hw x (by simp [hx])) ?_⟩
      rw [List.count_cons] at hcnt
      simpa [hc] using hcnt

/-! A whitespace run followed by punctuation or by `\item` violates the
respective invariant: used to rule these shapes out of invariant inputs. -/

lemma noWsBP_cons_false (c : Char) {cs : List Char} (h : noWsBP cs = false) :
    noWsBP (c :: cs) = false := by
  rw [show noWsBP (c :: cs) = (!(isSpace c && headIsPunct cs) && noWsBP cs) from rfl,
    h, Bool.and_false]

lemma noWsBI_cons_false (c : Char) {cs : List Char} (h : noWsBI cs = false) :
    noWsBI (c :: cs) = false := by
  rw [show noWsBI (c :: cs) = (!(isSpace c && startsWithItem cs) && noWsBI cs) from rfl,
    h, Bool.and_false]

lemma punct_after_ws_violation (c : Char) (t : List Char) (a : Char) (r : List Char)
    (hws : ∀ x ∈ c :: t, isSpace x = true) (hp : isPunct a = true) :
    noWsBP ((c :: t) ++ a :: r) = false := by
  induction t generalizing c with
  | nil => simp [noWsBP, headIsPunct, hws c (by simp), hp]
  | cons d u ih =>
    have h2 := ih d (fun x hx => hws x (List.mem_cons_of_mem c hx))
    exact noWsBP_cons_false c h2

lemma item_after_ws_violation (c : Char) (t : List Char) (r : List Char)
    (hws : ∀ x ∈ c :: t, isSpace x = true) (hit : startsWithItem r = true) :
    noWsBI ((c :: t) ++ r) = false := by
  induction t generalizing c with
  | nil => simp [noWsBI, hws c (by simp), hit]
  | cons d u ih =>
    have h2 := ih d (fun x hx => hws x (List.mem_cons_of_mem c hx))
    exact noWsBI_cons_false c h2

/-! Head analysis of the pass-3 and pass-4 scanners: while a whitespace
run is pending, the next emitted character is whitespace (or the
backslash of a `\item`), so these passes never expose a later word at a
position it did not occupy. -/

lemma p3Aux_cons_eq (pend : List Char) (c : Char) (cs : List Char) :
    p3Aux pend (c :: cs) = if isSpace c then p3Aux (c :: pend) cs
      else if startsWithItem (c :: cs) then c :: p3Aux [] cs
      else pend.reverse ++ (c :: p3Aux [] cs) := rfl

lemma p3Aux_nil_cons_nonws (c : Char) (cs : List Char) (h : isSpace c = false) :
    p3Aux [] (c :: cs) = c :: p3Aux [] cs := by
  rw [p3Aux_cons_eq, if_neg (by simp [h])]
  split <;> rfl

lemma p3Aux_head_ws : ∀ (ds pend : List Char), pend ≠ [] →
    (∀ x ∈ pend, isSpace x = true) → ∀ {y : Char},
    (p3Aux pend ds).head? = some y → isSpace y = true ∨ y = '\\'
  | [], pend, hne, hws, y, hy => by
    rw [show p3Aux pend [] = pend.reverse from rfl] at hy
    left
    have hmem : y ∈ pend.reverse := by
      cases hrev : pend.reverse with
      | nil => rw [hrev] at hy; simp at hy
      | cons a b =>
        rw [hrev] at hy
        simp at hy
        simp [hy]
    exact hws y (by simpa using hmem)
  | d :: ds2, pend, hne, hws, y, hy => by
    rw [p3Aux_cons_eq] at hy
    by_cases hd : isSpace d = true
    · rw [if_pos hd] at hy
      exact p3Aux_head_ws ds2 (d :: pend) (by simp)
        (by intro x hx; rcases List.mem_cons.mp hx with h1 | h1
            · subst h1; exact hd
            · exact hws x h1) hy
    · rw [if_neg hd] at hy
      by_cases hs : startsWithItem (d :: ds2) = true
      · rw [if_pos hs] at hy
        simp at hy
        right
        have h3 := swi_head hs
        simp at h3
        rw [← hy, h3]
      · rw [if_neg hs] at hy
        cases hrev : pend.reverse with
        | nil => exact absurd (by simpa using congrArg List.reverse hrev) hne
        | cons a b =>
          rw [hrev] at hy
          simp at hy
          left
          refine hws y ?_
          have : y ∈ pend.reverse := by rw [hrev]; simp [hy]
          simpa using this

lemma p3Aux_word_lead : ∀ (w cs : List Char),
    (∀ x ∈ w, isSpace x = false ∧ x ≠ '\\') →
    (∃ t, p3Aux [] cs = w ++ t) → ∃ t2, cs = w ++ t2 := by
  intro w
  induction w with
  | nil => exact fun cs _ _ => ⟨cs, rfl⟩
  | cons a w2 ih =>
    rintro cs hw ⟨t, ht⟩
    cases cs with
    | nil =>
      rw [show p3Aux [] [] = [] from rfl] at ht
      simp at ht
    | cons d ds =>
      by_cases hd : isSpace d = true
      · rw [p3Aux_cons_eq, if_pos hd] at ht
        have hhead : (p3Aux [d] ds).head? = some a := by rw [ht]; rfl
        rcases p3Aux_head_ws ds [d] (by simp)
          (by intro x hx; simp at hx; subst hx; exact hd) hhead with h1 | h1
        · exact absurd h1 (by simp [(hw a (by simp)).1])
        · exact absurd h1 (hw a (by simp)).2
      · rw [p3Aux_nil_cons_nonws d ds (by simpa using hd)] at ht
        simp only [List.cons_append, List.cons.injEq] at ht
        obtain ⟨hda, hrest⟩ := ht
        obtain ⟨t2, ht2⟩ := ih ds (fun x hx => hw x (by simp [hx])) ⟨t, hrest⟩
        exact ⟨t2, by rw [ht2, hda]; rfl⟩

lemma swi_cons_p3Aux {c : Char} {cs : List Char}
    (h : startsWithItem (c :: p3Aux [] cs) = true) : startsWithItem (c :: cs) = true := by
  obtain ⟨t, heq⟩ := swi_shape h
  simp only [List.cons.injEq] at heq
  obtain ⟨hc, hrest⟩ := heq
  obtain ⟨t2, ht2⟩ := p3Aux_word_lead ['i', 't', 'e', 'm'] cs (by decide) ⟨t, hrest⟩
  rw [hc, ht2]
  rfl

lemma p4Aux_cons_eq (pend : List Char) (c : Char) (cs : List Char) :
    p4Aux pend (c :: cs) = if isSpace c then p4Aux (c :: pend) cs
      else collapseRun pend.reverse ++ (c :: p4Aux [] cs) := rfl

lemma collapseRun_all_ws (R : List Char) (h : ∀ x ∈ R, isSpace x = true) :
    ∀ x ∈ collapseRun R, isSpace x = true := by
  unfold collapseRun
  split
  · intro x hx
    rcases List.mem_append.mp hx with h1 | h1
    · exact h x (List.takeWhile_subset _ h1)
    · simp at h1
      rw [h1]
      decide
  · exact h

lemma collapseRun_ne_nil {R : List Char} (h : R ≠ []) : collapseRun R ≠ [] := by
  unfold collapseRun
  split
  · simp
  · exact h

lemma p4Aux_nil_cons_nonws (c : Char) (cs : List Char) (h : isSpace c = false) :
    p4Aux [] (c :: cs) = c :: p4Aux [] cs := by
  rw [p4Aux_cons_eq, if_neg (by simp [h])]
  rw [show collapseRun ([] : List Char).reverse = [] from by simp [collapseRun]]
  rfl

lemma p4Aux_head_ws : ∀ (ds pend : List Char), pend ≠ [] →
    (∀ x ∈ pend, isSpace x = true) → ∀ {y : Char},
    (p4Aux pend ds).head? = some y → isSpace y = true
  | [], pend, hne, hws, y, hy => by
    rw [show p4Aux pend [] = collapseRun pend.reverse from rfl] at hy
    have hmem : y ∈ collapseRun pend.reverse := by
      cases hcr : collapseRun pend.reverse with
      | nil => rw [hcr] at hy; simp at hy
      | cons a b =>
        rw [hcr] at hy
        simp at hy
        simp [hy]
    exact collapseRun_all_ws pend.reverse (by intro x hx; exact hws x (by simpa using hx)) y hmem
  | d :: ds2, pend, hne, hws, y, hy => by
    rw [p4Aux_cons_eq] at hy
    by_cases hd : isSpace d = true
    · rw [if_pos hd] at hy
      exact p4Aux_head_ws ds2 (d :: pend) (by simp)
        (by intro x hx; rcases List.mem_cons.mp hx with h1 | h1
            · subst h1; exact hd
            · exact hws x h1) hy
    · rw [if_neg hd] at hy
      have hnn : collapseRun pend.reverse ≠ [] :=
        collapseRun_ne_nil (by simpa using (List.reverse_eq_nil_iff.not.mpr hne))
      cases hcr : collapseRun pend.reverse with
      | nil => exact absurd hcr hnn
      | cons a b =>
        rw [hcr] at hy
        simp at hy
        refine collapseRun_all_ws pend.reverse
          (by intro x hx; exact hws x (by simpa using hx)) y ?_
        rw [hcr]
        simp [hy]

lemma p4Aux_word_lead : ∀ (w cs : List Char),
    (∀ x ∈ w, isSpace x = false) →
    (∃ t, p4Aux [] cs = w ++ t) → ∃ t2, cs = w ++ t2 := by
  intro w
  induction w with
  | nil => exact fun cs _ _ => ⟨cs, rfl⟩
  | cons a w2 ih =>
    rintro cs hw ⟨t, ht⟩
    cases cs with
    | nil =>
      rw [show p4Aux [] [] = [] from by simp [p4Aux, collapseRun]] at ht
      simp at ht
    | cons d ds =>
      by_cases hd : isSpace d = true
      · rw [p4Aux_cons_eq, if_pos hd] at ht
        have hhead : (p4Aux [d] ds).head? = some a := by rw [ht]; rfl
        have h1 := p4Aux_head_ws ds [d] (by simp)
          (by intro x hx; simp at hx; subst hx; exact hd) hhead
        exact absurd h1 (by simp [hw a (by simp)])
      · rw [p4Aux_nil_cons_nonws d ds (by simpa using hd)] at ht
        simp only [List.cons_append, List.cons.injEq] at ht
        obtain ⟨hda, hrest⟩ := ht
        obtain ⟨t2, ht2⟩ := ih ds (fun x hx => hw x (by simp [hx])) ⟨t, hrest⟩
        exact ⟨t2, by rw [ht2, hda]; rfl⟩

lemma swi_cons_p4Aux {c : Char} {cs : List Char}
    (h : startsWithItem (c :: p4Aux [] cs) = true) : startsWithItem (c :: cs) = true := by
  obtain ⟨t, heq⟩ := swi_shape h
  simp only [List.cons.injEq] at heq
  obtain ⟨hc, hrest⟩ := heq
  obtain ⟨t2, ht2⟩ := p4Aux_word_lead ['i', 't', 'e', 'm'] cs (by decide) ⟨t, hrest⟩
  rw [hc, ht2]
  rfl

/-! Establishment and preservation of the invariants along the four
passes. -/

lemma not_space_of_punct {c : Char} (h : isPunct c = true) : isSpace c = false := by
  rcases punct_char_cases h with h2|h2|h2|h2|h2|h2 <;> subst h2 <;> decide

lemma startsTriple_head {c : Char} {cs : List Char} (h : startsTriple (c :: cs) = true) :
    c = '\n' := by
  obtain ⟨t, heq⟩ := startsTriple_shape h
  simp at heq
  exact heq.1

lemma p1Aux_cons_eq (pend : List Char) (c : Char) (cs : List Char) :
    p1Aux pend (c :: cs) = if isSpace c then p1Aux (c :: pend) cs
      else if isPunct c then c :: p1Aux [] cs
      else pend.reverse ++ (c :: p1Aux [] cs) := rfl

lemma p2Aux_cons_eq (pend : List Char) (c : Char) (cs : List Char) :
    p2Aux pend (c :: cs) = if isSpace c then p2Aux (c :: pend) cs
      else trimRun pend.reverse false ++ (c :: p2Aux [] cs) := rfl

lemma ws_extend {c : Char} {pend : List Char} (hc : isSpace c = true)
    (hws : ∀ x ∈ pend, isSpace x = true) : ∀ x ∈ c :: pend, isSpace x = true := by
  intro x hx
  rcases List.mem_cons.mp hx with h1 | h1
  · subst h1; exact hc
  · exact hws x h1

lemma ws_rev {pend : List Char} (hws : ∀ x ∈ pend, isSpace x = true) :
    ∀ x ∈ pend.reverse, isSpace x = true :=
  fun x hx => hws x (List.mem_reverse.mp hx)

lemma extract_no_punct {pend : List Char} {c : Char} {cs : List Char}
    (hws : ∀ x ∈ pend, isSpace x = true) (hne : pend ≠ [])
    (h : noWsBP (pend.reverse ++ c :: cs) = true) : isPunct c = false := by
  cases hp : isPunct c with
  | false => rfl
  | true =>
    cases hrev : pend.reverse with
    | nil => exact absurd (by simpa using congrArg List.reverse hrev) hne
    | cons q qs =>
      have hqs : ∀ x ∈ q :: qs, isSpace x = true := by
        intro x hx
        refine hws x (List.mem_reverse.mp ?_)
        rw [hrev]
        exact hx
      have hviol := punct_after_ws_violation q qs c cs hqs hp
      rw [hrev, hviol] at h
      simp at h

lemma extract_no_item {pend : List Char} {c : Char} {cs : List Char}
    (hws : ∀ x ∈ pend, isSpace x = true) (hne : pend ≠ [])
    (h : noWsBI (pend.reverse ++ c :: cs) = true) :
    startsWithItem (c :: cs) = false := by
  cases hp : startsWithItem (c :: cs) with
  | false => rfl
  | true =>
    cases hrev : pend.reverse with
    | nil => exact absurd (by simpa using congrArg List.reverse hrev) hne
    | cons q qs =>
      have hqs : ∀ x ∈ q :: qs, isSpace x = true := by
        intro x hx
        refine hws x (List.mem_reverse.mp ?_)
        rw [hrev]
        exact hx
      have hviol := item_after_ws_violation q qs (c :: cs) hqs hp
      rw [hrev, hviol] at h
      simp at h

/-- Pass 1 establishes: no whitespace before punctuation. -/
lemma p1Aux_noWsBP : ∀ (l pend : List Char), (∀ x ∈ pend, isSpace x = true) →
    noWsBP (p1Aux pend l) = true
  | [], pend, hws => noWsBP_of_all_ws _ (ws_rev hws)
  | c :: cs, pend, hws => by
    rw [p1Aux_cons_eq]
    by_cases hc : isSpace c = true
    · rw [if_pos hc]
      exact p1Aux_noWsBP cs (c :: pend) (ws_extend hc hws)
    · rw [if_neg hc]
      have hcF : isSpace c = false := by simpa using hc
      by_cases hp : isPunct c = true
      · rw [if_pos hp]
        simp only [noWsBP, Bool.and_eq_true, Bool.not_eq_true']
        exact ⟨by simp [hcF], p1Aux_noWsBP cs [] (by simp)⟩
      · rw [if_neg hp]
        refine noWsBP_ws_append _ _ (ws_rev hws) ?_ ?_
        · simp only [noWsBP, Bool.and_eq_true, Bool.not_eq_true']
          exact ⟨by simp [hcF], p1Aux_noWsBP cs [] (by simp)⟩
        · simpa using hp

/-- Pass 1 preserves: no blank line. -/
lemma p1Aux_noBlank : ∀ (l pend : List Char), (∀ x ∈ pend, isSpace x = true) →
    noBlankRun (pend.reverse ++ l) = true → noBlankRun (p1Aux pend l) = true
  | [], pend, hws, h => by
    rw [show p1Aux pend [] = pend.reverse from rfl]
    rw [List.append_nil] at h
    exact h
  | c :: cs, pend, hws, h => by
    rw [p1Aux_cons_eq]
    by_cases hc : isSpace c = true
    · rw [if_pos hc]
      refine p1Aux_noBlank cs (c :: pend) (ws_extend hc hws) ?_
      rw [show (c :: pend).reverse ++ cs = pend.reverse ++ (c :: cs) from by simp]
      exact h
    · rw [if_neg hc]
      have hcF : isSpace c = false := by simpa using hc
      have hcs : noBlankRun cs = true :=
        noBlankRun_tail (@noBlankRun_append_right pend.reverse _ h)
      have hx : noBlankRun (c :: p1Aux [] cs) = true := by
        simp only [noBlankRun, Bool.and_eq_true, Bool.not_eq_true']
        refine ⟨by simp [not_space_of_nonws_nl hcF], ?_⟩
        exact p1Aux_noBlank cs [] (by simp) (by simpa using hcs)
      by_cases hp : isPunct c = true
      · rw [if_pos hp]
        exact hx
      · rw [if_neg hp]
        have hpre : noBlankRun pend.reverse = true := noBlankRun_append_left h
        refine noBlankRun_ws_append _ _ (ws_rev hws)
          (count_nl_le_one_of_noBlank _ (ws_rev hws) hpre) hx
          (nlReachable_cons_nonws _ hcF)

/-- Pass 3 establishes: no whitespace before `\item`. -/
lemma p3Aux_noWsBI : ∀ (l pend : List Char), (∀ x ∈ pend, isSpace x = true) →
    noWsBI (p3Aux pend l) = true
  | [], pend, hws => noWsBI_of_all_ws _ (ws_rev hws)
  | c :: cs, pend, hws => by
    rw [p3Aux_cons_eq]
    by_cases hc : isSpace c = true
    · rw [if_pos hc]
      exact p3Aux_noWsBI cs (c :: pend) (ws_extend hc hws)
    · rw [if_neg hc]
      have hcF : isSpace c = false := by simpa using hc
      have hx : noWsBI (c :: p3Aux [] cs) = true := by
        simp only [noWsBI, Bool.and_eq_true, Bool.not_eq_true']
        exact ⟨by simp [hcF], p3Aux_noWsBI cs [] (by simp)⟩
      by_cases hs : startsWithItem (c :: cs) = true
      · rw [if_pos hs]
        exact hx
      · rw [if_neg hs]
        refine noWsBI_ws_append _ _ (ws_rev hws) hx ?_
        cases hsw : startsWithItem (c :: p3Aux [] cs) with
        | false => rfl
        | true => exact absurd (swi_cons_p3Aux hsw) (by simp [hs])

/-- Pass 3 preserves: no whitespace before punctuation, and no blank line. -/
lemma p3Aux_pres : ∀ (l pend : List Char), (∀ x ∈ pend, isSpace x = true) →
    noWsBP (pend.reverse ++ l) = true → noBlankRun (pend.reverse ++ l) = true →
    noWsBP (p3Aux pend l) = true ∧ noBlankRun (p3Aux pend l) = true
  | [], pend, hws, hP, hB => by
    rw [show p3Aux pend [] = pend.reverse from rfl]
    rw [List.append_nil] at hP hB
    exact ⟨hP, hB⟩
  | c :: cs, pend, hws, hP, hB => by
    rw [p3Aux_cons_eq]
    by_cases hc : isSpace c = true
    · rw [if_pos hc]
      refine p3Aux_pres cs (c :: pend) (ws_extend hc hws) ?_ ?_ <;>
        rw [show (c :: pend).reverse ++ cs = pend.reverse ++ (c :: cs) from by simp]
      · exact hP
      · exact hB
    · rw [if_neg hc]
      have hcF : isSpace c = false := by simpa using hc
      have hPc : noWsBP (c :: cs) = true := noWsBP_append_right hP
      have hBc : noBlankRun (c :: cs) = true := noBlankRun_append_right hB
      have hrec := p3Aux_pres cs [] (by simp) (by simpa using noWsBP_tail hPc)
        (by simpa using noBlankRun_tail hBc)
      have hxP : noWsBP (c :: p3Aux [] cs) = true := by
        simp only [noWsBP, Bool.and_eq_true, Bool.not_eq_true']
        exact ⟨by simp [hcF], hrec.1⟩
      have hxB : noBlankRun (c :: p3Aux [] cs) = true := by
        simp only [noBlankRun, Bool.and_eq_true, Bool.not_eq_true']
        exact ⟨by simp [not_space_of_nonws_nl hcF], hrec.2⟩
      by_cases hs : startsWithItem (c :: cs) = true
      · rw [if_pos hs]
        exact ⟨hxP, hxB⟩
      · rw [if_neg hs]
        constructor
        · by_cases hpend : pend = []
          · subst hpend
            simpa using hxP
          · refine noWsBP_ws_append _ _ (ws_rev hws) hxP ?_
            have := extract_no_punct hws hpend hP
            simpa using this
        · have hpre : noBlankRun pend.reverse = true := noBlankRun_append_left hB
          exact noBlankRun_ws_append _ _ (ws_rev hws)
            (count_nl_le_one_of_noBlank _ (ws_rev hws) hpre) hxB
            (nlReachable_cons_nonws _ hcF)

/-- Pass 4 preserves: no whitespace before `\item`. -/
lemma p4Aux_noWsBI : ∀ (l pend : List Char), (∀ x ∈ pend, isSpace x = true) →
    noWsBI (pend.reverse ++ l) = true → noWsBI (p4Aux pend l) = true
  | [], pend, hws, _ => by
    rw [show p4Aux pend [] = collapseRun pend.reverse from rfl]
    exact noWsBI_of_all_ws _ (collapseRun_all_ws _ (ws_rev hws))
  | c :: cs, pend, hws, h => by
    rw [p4Aux_cons_eq]
    by_cases hc : isSpace c = true
    · rw [if_pos hc]
      refine p4Aux_noWsBI cs (c :: pend) (ws_extend hc hws) ?_
      rw [show (c :: pend).reverse ++ cs = pend.reverse ++ (c :: cs) from by simp]
      exact h
    · rw [if_neg hc]
      have hcF : isSpace c = false := by simpa using hc
      have hcs : noWsBI cs = true := noWsBI_tail (@noWsBI_append_right pend.reverse _ h)
      have hx : noWsBI (c :: p4Aux [] cs) = true := by
        simp only [noWsBI, Bool.and_eq_true, Bool.not_eq_true']
        exact ⟨by simp [hcF], p4Aux_noWsBI cs [] (by simp) (by simpa using hcs)⟩
      by_cases hpend : pend = []
      · subst hpend
        rw [show collapseRun ([] : List Char).reverse = [] from by simp [collapseRun]]
        simpa using hx
      · refine noWsBI_ws_append _ _ (collapseRun_all_ws _ (ws_rev hws)) hx ?_
        cases hsw : startsWithItem (c :: p4Aux [] cs) with
        | false => rfl
        | true =>
          have h2 := swi_cons_p4Aux hsw
          have h3 := extract_no_item hws hpend h
          rw [h2] at h3
          simp at h3

/-- Every run rewritten by pass 4 is free of triple newlines. -/
lemma noTripleNl_of_count {l : List Char} (h : l.count '\n' ≤ 2) :
    noTripleNl l = true := by
  induction l with
  | nil => rfl
  | cons c cs ih =>
    simp only [noTripleNl, Bool.and_eq_true, Bool.not_eq_true']
    constructor
    · cases hst : startsTriple (c :: cs) with
      | false => rfl
      | true =>
        exfalso
        obtain ⟨t, heq⟩ := startsTriple_shape hst
        rw [heq] at h
        rw [List.count_cons, List.count_cons, List.count_cons] at h
        simp at h
    · refine ih ?_
      rw [List.count_cons] at h
      omega

lemma noTriple_nonl_append_two {w : List Char} (h : ∀ x ∈ w, x ≠ '\n') :
    noTripleNl (w ++ ['\n', '\n']) = true := by
  induction w with
  | nil => decide
  | cons c t ih =>
    simp only [List.cons_append, noTripleNl, Bool.and_eq_true, Bool.not_eq_true']
    constructor
    · cases hst : startsTriple (c :: (t ++ ['\n', '\n'])) with
      | false => rfl
      | true => exact absurd (startsTriple_head hst) (h c (by simp))
    · exact ih (fun x hx => h x (by simp [hx]))

lemma collapseRun_noTriple (R : List Char) : noTripleNl (collapseRun R) = true := by
  unfold collapseRun
  split
  · exact noTriple_nonl_append_two (fun x hx => by
      have := List.mem_takeWhile_imp hx
      simpa using this)
  · refine noTripleNl_of_count ?_
    omega

lemma noTripleNl_append {xs ys : List Char} (hxs : noTripleNl xs = true)
    (hys : noTripleNl ys = true) (hhead : ys.head? ≠ some '\n') :
    noTripleNl (xs ++ ys) = true := by
  induction xs with
  | nil => exact hys
  | cons c t ih =>
    simp only [List.cons_append, noTripleNl, Bool.and_eq_true, Bool.not_eq_true']
    refine ⟨?_, ih (noTripleNl_tail hxs)⟩
    cases hst : startsTriple (c :: (t ++ ys)) with
    | false => rfl
    | true =>
      exfalso
      obtain ⟨r, hr⟩ := startsTriple_shape hst
      simp only [List.cons.injEq] at hr
      obtain ⟨hc, hr2⟩ := hr
      cases t with
      | nil =>
        simp at hr2
        apply hhead
        rw [hr2]
        rfl
      | cons a u =>
        simp only [List.cons_append, List.cons.injEq] at hr2
        obtain ⟨ha, hr3⟩ := hr2
        cases u with
        | nil =>
          simp at hr3
          apply hhead
          rw [hr3]
          rfl
        | cons b v =>
          simp only [List.cons_append, List.cons.injEq] at hr3
          obtain ⟨hb, _⟩ := hr3
          have : startsTriple (c :: a :: b :: v) = true := by
            subst hc ha hb
            rfl
          simp only [noTripleNl, this, Bool.not_true, Bool.false_and,
            Bool.and_eq_true] at hxs
          simp at hxs

/-- Pass 4 establishes: no triple newline. -/
lemma p4Aux_noTriple : ∀ (l pend : List Char),
    noTripleNl (p4Aux pend l) = true
  | [], pend => by
    rw [show p4Aux pend [] = collapseRun pend.reverse from rfl]
    exact collapseRun_noTriple pend.reverse
  | c :: cs, pend => by
    rw [p4Aux_cons_eq]
    by_cases hc : isSpace c = true
    · rw [if_pos hc]
      exact p4Aux_noTriple cs (c :: pend)
    · rw [if_neg hc]
      have hcF : isSpace c = false := by simpa using hc
      refine noTripleNl_append (collapseRun_noTriple _) ?_ ?_
      · simp only [noTripleNl, Bool.and_eq_true, Bool.not_eq_true']
        refine ⟨?_, p4Aux_noTriple cs []⟩
        cases hst : startsTriple (c :: p4Aux [] cs) with
        | false => rfl
        | true => exact absurd (startsTriple_head hst) (not_space_of_nonws_nl hcF)
      · simp only [List.head?_cons, ne_eq, Option.some.injEq]
        exact not_space_of_nonws_nl hcF

/-! Identity of the passes on already-clean input, for the idempotence
analysis of the post-processor. -/

lemma collapseRun_id {R : List Char} (h : R.count '\n' ≤ 2) : collapseRun R = R := by
  unfold collapseRun
  rw [if_neg (by omega)]

lemma dropWhile_head_nonws : ∀ (m : List Char) {c : Char},
    (m.dropWhile isSpace).head? = some c → isSpace c = false
  | [], c, h => by simp at h
  | d :: t, c, h => by
    by_cases hd : isSpace d = true
    · rw [List.dropWhile_cons_of_pos hd] at h
      exact dropWhile_head_nonws t h
    · rw [List.dropWhile_cons_of_neg hd] at h
      simp only [List.head?_cons, Option.some.injEq] at h
      rw [← h]
      simpa using hd

lemma stripChars_head {l : List Char} {c : Char}
    (h : (stripChars l).head? = some c) : isSpace c = false := by
  cases hsc : stripChars l with
  | nil =>
    rw [hsc] at h
    simp at h
  | cons d ds =>
    rw [hsc] at h
    simp only [List.head?_cons, Option.some.injEq] at h
    have hr : rstrip (lstrip l) = d :: ds := hsc
    have hhead : (lstrip l).head? = some d := by
      rw [rstrip_decomp (lstrip l), hr]
      rfl
    have := dropWhile_head_nonws l hhead
    rw [← h]
    exact this

lemma stripChars_last {l : List Char} {c : Char}
    (h : (stripChars l).getLast? = some c) : isSpace c = false := by
  unfold stripChars at h
  rw [List.getLast?_reverse] at h
  exact dropWhile_head_nonws _ h

lemma stripChars_id {l : List Char}
    (hh : ∀ c, l.head? = some c → isSpace c = false)
    (hl : ∀ c, l.getLast? = some c → isSpace c = false) : stripChars l = l := by
  have h1 : lstrip l = l := by
    cases l with
    | nil => rfl
    | cons d t =>
      have hd := hh d rfl
      show (d :: t).dropWhile isSpace = d :: t
      rw [List.dropWhile_cons_of_neg (by simp [hd])]
  unfold stripChars
  rw [h1]
  cases hrev : l.reverse with
  | nil =>
    have h0 : l = [] := by simpa using congrArg List.reverse hrev
    subst h0
    rfl
  | cons d t =>
    have hd : l.getLast? = some d := by
      rw [← List.head?_reverse, hrev]
      rfl
    have hds := hl d hd
    rw [List.dropWhile_cons_of_neg (by simp [hds]), ← hrev, List.reverse_reverse]

/-- Pass 2 preserves: no whitespace before punctuation, and no blank line. -/
lemma p2Aux_pres : ∀ (l pend : List Char), (∀ x ∈ pend, isSpace x = true) →
    noWsBP (pend.reverse ++ l) = true → noBlankRun (pend.reverse ++ l) = true →
    noWsBP (p2Aux pend l) = true ∧ noBlankRun (p2Aux pend l) = true
  | [], pend, hws, _, hB => by
    rw [show p2Aux pend [] = trimRun pend.reverse true from rfl]
    rw [List.append_nil] at hB
    exact ⟨noWsBP_of_all_ws _ (trimRun_all_ws true (ws_rev hws)),
      trimRun_noBlank true (ws_rev hws) hB⟩
  | c :: cs, pend, hws, hP, hB => by
    rw [p2Aux_cons_eq]
    by_cases hc : isSpace c = true
    · rw [if_pos hc]
      refine p2Aux_pres cs (c :: pend) (ws_extend hc hws) ?_ ?_ <;>
        rw [show (c :: pend).reverse ++ cs = pend.reverse ++ (c :: cs) from by simp]
      · exact hP
      · exact hB
    · rw [if_neg hc]
      have hcF : isSpace c = false := by simpa using hc
      have hpre : noBlankRun pend.reverse = true := noBlankRun_append_left hB
      have hcnt := count_nl_le_one_of_noBlank _ (ws_rev hws) hpre
      rw [trimRun_id_of_count hcnt]
      have hPc : noWsBP (c :: cs) = true := noWsBP_append_right hP
      have hBc : noBlankRun (c :: cs) = true := noBlankRun_append_right hB
      have hrec := p2Aux_pres cs [] (by simp) (by simpa using noWsBP_tail hPc)
        (by simpa using noBlankRun_tail hBc)
      have hxP : noWsBP (c :: p2Aux [] cs) = true := by
        simp only [noWsBP, Bool.and_eq_true, Bool.not_eq_true']
        exact ⟨by simp [hcF], hrec.1⟩
      have hxB : noBlankRun (c :: p2Aux [] cs) = true := by
        simp only [noBlankRun, Bool.and_eq_true, Bool.not_eq_true']
        exact ⟨by simp [not_space_of_nonws_nl hcF], hrec.2⟩
      constructor
      · by_cases hpend : pend = []
        · subst hpend
          simpa using hxP
        · refine noWsBP_ws_append _ _ (ws_rev hws) hxP ?_
          have := extract_no_punct hws hpend hP
          simpa using this
      · exact noBlankRun_ws_append _ _ (ws_rev hws) hcnt hxB
          (nlReachable_cons_nonws _ hcF)

/-- Pass 1 is the identity on input without whitespace before punctuation. -/
lemma p1Aux_id : ∀ (l pend : List Char), (∀ x ∈ pend, isSpace x = true) →
    noWsBP (pend.reverse ++ l) = true → p1Aux pend l = pend.reverse ++ l
  | [], pend, _, _ => by simp [p1Aux]
  | c :: cs, pend, hws, hP => by
    rw [p1Aux_cons_eq]
    by_cases hc : isSpace c = true
    · rw [if_pos hc]
      rw [show pend.reverse ++ (c :: cs) = (c :: pend).reverse ++ cs from by simp] at hP ⊢
      exact p1Aux_id cs (c :: pend) (ws_extend hc hws) hP
    · rw [if_neg hc]
      have hPc : noWsBP (c :: cs) = true := noWsBP_append_right hP
      have hrec := p1Aux_id cs [] (by simp) (by simpa using noWsBP_tail hPc)
      simp only [List.reverse_nil, List.nil_append] at hrec
      by_cases hp : isPunct c = true
      · rw [if_pos hp]
        have hpend : pend = [] := by
          by_contra hne
          have := extract_no_punct hws hne hP
          rw [hp] at this
          simp at this
        subst hpend
        simp [hrec]
      · rw [if_neg hp]
        rw [hrec]

/-- Pass 2 is the identity on input with no blank line and no trailing
whitespace. -/
lemma p2Aux_id : ∀ (l pend : List Char), (∀ x ∈ pend, isSpace x = true) →
    noBlankRun (pend.reverse ++ l) = true →
    (∀ c, (pend.reverse ++ l).getLast? = some c → isSpace c = false) →
    p2Aux pend l = pend.reverse ++ l
  | [], pend, hws, _, hlast => by
    have hpend : pend = [] := by
      cases hg : pend.reverse.getLast? with
      | none =>
        rw [List.getLast?_eq_none_iff] at hg
        simpa using congrArg List.reverse hg
      | some x =>
        exfalso
        have hx : x ∈ pend := List.mem_reverse.mp (List.mem_of_mem_getLast? hg)
        have h1 := hlast x (by rw [List.append_nil]; exact hg)
        rw [hws x hx] at h1
        simp at h1
    subst hpend
    rfl
  | c :: cs, pend, hws, hB, hlast => by
    rw [p2Aux_cons_eq]
    by_cases hc : isSpace c = true
    · rw [if_pos hc]
      rw [show pend.reverse ++ (c :: cs) = (c :: pend).reverse ++ cs from by simp] at hB hlast ⊢
      exact p2Aux_id cs (c :: pend) (ws_extend hc hws) hB hlast
    · rw [if_neg hc]
      have hpre : noBlankRun pend.reverse = true := noBlankRun_append_left hB
      have hcnt := count_nl_le_one_of_noBlank _ (ws_rev hws) hpre
      rw [trimRun_id_of_count hcnt]
      have hBc : noBlankRun (c :: cs) = true := noBlankRun_append_right hB
      have hlast2 : ∀ x, cs.getLast? = some x → isSpace x = false := by
        intro x hx
        apply hlast x
        rw [show pend.reverse ++ c :: cs = (pend.reverse ++ [c]) ++ cs from by simp]
        rw [List.getLast?_append, hx]
        rfl
      have hrec := p2Aux_id cs [] (by simp) (by simpa using noBlankRun_tail hBc)
        (by simpa using hlast2)
      simp only [List.reverse_nil, List.nil_append] at hrec
      rw [hrec]

/-- Pass 3 is the identity on input without whitespace before `\item`. -/
lemma p3Aux_id : ∀ (l pend : List Char), (∀ x ∈ pend, isSpace x = true) →
    noWsBI (pend.reverse ++ l) = true → p3Aux pend l = pend.reverse ++ l
  | [], pend, _, _ => by simp [p3Aux]
  | c :: cs, pend, hws, hI => by
    rw [p3Aux_cons_eq]
    by_cases hc : isSpace c = true
    · rw [if_pos hc]
      rw [show pend.reverse ++ (c :: cs) = (c :: pend).reverse ++ cs from by simp] at hI ⊢
      exact p3Aux_id cs (c :: pend) (ws_extend hc hws) hI
    · rw [if_neg hc]
      have hIc : noWsBI (c :: cs) = true := noWsBI_append_right hI
      have hrec := p3Aux_id cs [] (by simp) (by simpa using noWsBI_tail hIc)
      simp only [List.reverse_nil, List.nil_append] at hrec
      by_cases hs : startsWithItem (c :: cs) = true
      · rw [if_pos hs]
        have hpend : pend = [] := by
          by_contra hne
          have := extract_no_item hws hne hI
          rw [hs] at this
          simp at this
        subst hpend
        simp [hrec]
      · rw [if_neg hs]
        rw [hrec]

/-- Pass 4 is the identity on input with no blank line. -/
lemma p4Aux_id : ∀ (l pend : List Char), (∀ x ∈ pend, isSpace x = true) →
    noBlankRun (pend.reverse ++ l) = true → p4Aux pend l = pend.reverse ++ l
  | [], pend, hws, hB => by
    rw [List.append_nil] at hB
    rw [show p4Aux pend [] = collapseRun pend.reverse from rfl]
    rw [collapseRun_id (le_trans (count_nl_le_one_of_noBlank _ (ws_rev hws) hB) (by omega))]
    simp
  | c :: cs, pend, hws, hB => by
    rw [p4Aux_cons_eq]
    by_cases hc : isSpace c = true
    · rw [if_pos hc]
      rw [show pend.reverse ++ (c :: cs) = (c :: pend).reverse ++ cs from by simp] at hB ⊢
      exact p4Aux_id cs (c :: pend) (ws_extend hc hws) hB
    · rw [if_neg hc]
      have hpre : noBlankRun pend.reverse = true := noBlankRun_append_left hB
      rw [collapseRun_id (le_trans (count_nl_le_one_of_noBlank _ (ws_rev hws) hpre) (by omega))]
      have hBc : noBlankRun (c :: cs) = true := noBlankRun_append_right hB
      have hrec := p4Aux_id cs [] (by simp) (by simpa using noBlankRun_tail hBc)
      simp only [List.reverse_nil, List.nil_append] at hrec
      rw [hrec]

/-- A string whose character list satisfies all the post-processor's
output invariants and is stripped is a fixed point of the post-processor. -/
lemma post_fixed {l : List Char} (hP : noWsBP l = true) (hI : noWsBI l = true)
    (hB : noBlankRun l = true)
    (hh : ∀ c, l.head? = some c → isSpace c = false)
    (hl : ∀ c, l.getLast? = some c → isSpace c = false) :
    post_process_latex ⟨l⟩ = ⟨l⟩ := by
  show (⟨stripChars (p4Aux [] (p3Aux [] (p2Aux [] (p1Aux [] l))))⟩ : String) = ⟨l⟩
  rw [show p1Aux [] l = l from by
    simpa using p1Aux_id l [] (by simp) (by simpa using hP)]
  rw [show p2Aux [] l = l from by
    simpa using p2Aux_id l [] (by simp) (by simpa using hB) (by simpa using hl)]
  rw [show p3Aux [] l = l from by
    simpa using p3Aux_id l [] (by simp) (by simpa using hI)]
  rw [show p4Aux [] l = l from by
    simpa using p4Aux_id l [] (by simp) (by simpa using hB)]
  rw [stripChars_id hh hl]

/-- C4 (counterexample): the post-processor is not idempotent. On
`"a \n \n \nb"` the first application gives `"a \n\nb"` (pass 4 collapses
the three-newline run but keeps the space that precedes the run's first
newline), and the second application gives `"a\n\nb"` (pass 2 now finds a
`\s+\n$` match that the rewritten run exposes). -/
theorem C4_idempotence_counterexample :
    post_process_latex (post_process_latex "a \n \n \nb") ≠
      post_process_latex "a \n \n \nb" := by decide

/-- C4 (amended): the post-processor is idempotent on every input without
a blank run, i.e. in which no newline is connected to a later newline
through whitespace characters only. -/
theorem C4_idempotent_on_blank_free (s : String) (h : noBlankRun s.data = true) :
    post_process_latex (post_process_latex s) = post_process_latex s := by
  have hP1 : noWsBP (p1Aux [] s.data) = true := p1Aux_noWsBP s.data [] (by simp)
  have hB1 : noBlankRun (p1Aux [] s.data) = true :=
    p1Aux_noBlank s.data [] (by simp) (by simpa using h)
  have h2 := p2Aux_pres (p1Aux [] s.data) [] (by simp) (by simpa using hP1)
    (by simpa using hB1)
  have h3 := p3Aux_pres (p2Aux [] (p1Aux [] s.data)) [] (by simp)
    (by simpa using h2.1) (by simpa using h2.2)
  have hI3 : noWsBI (p3Aux [] (p2Aux [] (p1Aux [] s.data))) = true :=
    p3Aux_noWsBI _ [] (by simp)
  have h4 : p4Aux [] (p3Aux [] (p2Aux [] (p1Aux [] s.data))) =
      p3Aux [] (p2Aux [] (p1Aux [] s.data)) := by
    simpa using p4Aux_id (p3Aux [] (p2Aux [] (p1Aux [] s.data))) [] (by simp)
      (by simpa using h3.2)
  have hrep : post_process_latex s =
      ⟨stripChars (p3Aux [] (p2Aux [] (p1Aux [] s.data)))⟩ := by
    show (⟨stripChars (p4Aux [] (p3Aux [] (p2Aux [] (p1Aux [] s.data))))⟩ : String) = _
    rw [h4]
  rw [hrep]
  exact post_fixed (noWsBP_strip h3.1) (noWsBI_strip hI3) (noBlankRun_strip h3.2)
    (fun c hc => stripChars_head hc) (fun c hc => stripChars_last hc)

/-- A concrete blank-run-free input on which the amended idempotence
theorem applies. -/
theorem C4_idempotent_on_blank_free_witness :
    noBlankRun ("Hi , there !\nBye .").data = true ∧
      post_process_latex (post_process_latex "Hi , there !\nBye .") =
        post_process_latex "Hi , there !\nBye ." :=
  ⟨by decide, C4_idempotent_on_blank_free "Hi , there !\nBye ." (by decide)⟩

/-- C7: for every input string, the post-processor's output never contains
three or more consecutive newline characters (pass 4 collapses every run of
3-or-more newline-separated blank lines to a single blank line, as the
concrete second conjunct shows on a run of four newlines). -/
theorem C7_no_triple_newline :
    (∀ s : String, noTripleNl (post_process_latex s).data = true) ∧
    post_process_latex "a\n\n\n\nb" = "a\n\nb" := by
  constructor
  · intro s
    show noTripleNl (stripChars (p4Aux [] (p3Aux [] (p2Aux [] (p1Aux [] s.data))))) = true
    exact noTripleNl_strip (p4Aux_noTriple _ [])
  · rfl

/-- C9: for every input string, no character of the post-processor's output
that starts the token `\item` is immediately preceded by whitespace; in
particular the two-space indentation emitted before `\item` never survives
post-processing. -/
theorem C9_no_ws_before_item (s : String) :
    noWsBI (post_process_latex s).data = true := by
  show noWsBI (stripChars (p4Aux [] (p3Aux [] (p2Aux [] (p1Aux [] s.data))))) = true
  refine noWsBI_strip (p4Aux_noWsBI _ [] (by simp) ?_)
  simpa using p3Aux_noWsBI (p2Aux [] (p1Aux [] s.data)) [] (by simp)

end ThinkParser
